import Mathlib

/-!
Verification of the Rd-markup / R-source extraction core of `pkgctx`
(`src/r_source_extractor.rs`), as a shallow embedding in Lean.

Character scanners from the source are embedded as functions over `List Char`
(Rust `Peekable<Chars>` becomes head/tail recursion); the two scanners that the
source writes with nested `while let` loops over one shared iterator
(`parse_arguments_section`, `strip_rd_directives`) are embedded as equivalent
one-character-per-step state machines folded over the input, where each state
corresponds to one of the source's loops.  `BTreeMap` is modelled as an
association list whose `insert` overwrites in place; the observations used
(lookup, size, stored values) agree with the ordered map.  Rust's Unicode
`char::is_alphabetic` is modelled on its ASCII fragment (all inputs considered
here are ASCII); `char::is_whitespace` is modelled with the full White_Space
set.  `anyhow::Result` wrappers that have no error path are dropped.
-/

namespace PkgCtx

/-- The backslash character (written via its code point throughout). -/
def bsl : Char := '\x5c'

/-- The opening brace character. -/
def obr : Char := '\x7b'

/-- The closing brace character. -/
def cbr : Char := '\x7d'

/-- Rust `char::is_whitespace` (the Unicode White_Space property). -/
def isWs (c : Char) : Bool :=
  c.val == 9 || c.val == 10 || c.val == 11 || c.val == 12 || c.val == 13 ||
  c.val == 32 || c.val == 0x85 || c.val == 0xA0 || c.val == 0x1680 ||
  (0x2000 ≤ c.val && c.val ≤ 0x200A) || c.val == 0x2028 || c.val == 0x2029 ||
  c.val == 0x202F || c.val == 0x205F || c.val == 0x3000

/-- Characters collected as a command name by `strip_rd_markup`
(`nc.is_alphabetic() || nc == '_'`; ASCII fragment of `is_alphabetic`). -/
def isCmdChar (c : Char) : Bool := c.isAlpha || c = '_'

/-- Drop matching characters from the end of a list. -/
def dropEndWhile (p : Char → Bool) (l : List Char) : List Char :=
  (l.reverse.dropWhile p).reverse

/-- Rust `str::trim` on a character list. -/
def trimChars (l : List Char) : List Char :=
  dropEndWhile isWs (l.dropWhile isWs)

/-- Split a character list at newline characters (keeps empty segments). -/
def splitNl : List Char → List (List Char)
  | [] => [[]]
  | c :: cs =>
    if c = '\n' then [] :: splitNl cs
    else
      match splitNl cs with
      | [] => [[c]]
      | l :: ls => (c :: l) :: ls

/-- Rust `str::lines` on a character list: split at newlines, a final line
ending is optional, and one trailing carriage return is stripped per line. -/
def rustLinesList (cs : List Char) : List (List Char) :=
  if cs = [] then []
  else
    let parts := splitNl cs
    let parts := if cs.getLast? = some '\n' then parts.dropLast else parts
    parts.map (fun l => if l.getLast? = some '\x0d' then l.dropLast else l)

/-- `BTreeMap::insert`, modelled on an association list: overwrite in place,
append a fresh key at the end. -/
def insertBT {α : Type} : List (String × α) → String → α → List (String × α)
  | [], k, v => [(k, v)]
  | (k0, v0) :: rest, k, v =>
    if k0 = k then (k, v) :: rest else (k0, v0) :: insertBT rest k v

/-- `BTreeMap::get`, modelled on an association list. -/
def lookupBT {α : Type} : List (String × α) → String → Option α
  | [], _ => none
  | (k0, v0) :: rest, k => if k0 = k then some v0 else lookupBT rest k

/-- `count_braces` from the source: count of opening braces minus count of
closing braces, as a signed integer (`isize`). -/
def countBracesL (l : List Char) : Int :=
  (l.countP (· = obr) : Int) - (l.countP (· = cbr) : Int)

/-- `count_braces` on a string. -/
def count_braces (s : String) : Int := countBracesL s.toList

/-- `extract_brace_content_nested`: consume characters until the brace depth
(starting at `d`) returns to zero; the final closing brace is consumed but not
kept.  Returns the content and the remaining characters. -/
def extractBraceGo : Nat → List Char → List Char × List Char
  | _, [] => ([], [])
  | d, c :: cs =>
    if c = cbr then
      if d = 1 then ([], cs)
      else
        match extractBraceGo (d - 1) cs with
        | (i, r) => (c :: i, r)
    else if c = obr then
      match extractBraceGo (d + 1) cs with
      | (i, r) => (c :: i, r)
    else
      match extractBraceGo d cs with
      | (i, r) => (c :: i, r)

/-- Commands of `strip_rd_markup` whose single brace group is kept raw. -/
def keepCmds : List String :=
  ["code", "link", "pkg", "emph", "strong", "bold", "sQuote", "dQuote",
   "file", "option", "var", "env", "command", "dfn", "cite", "acronym",
   "samp", "kbd"]

/-- Commands of `strip_rd_markup` whose brace group is dropped entirely. -/
def dropCmds : List String :=
  ["section", "subsection", "seealso", "author", "references", "source",
   "format", "note", "keyword", "concept", "alias", "name", "docType",
   "title", "encoding", "Rdversion"]

/-- List-container commands of `strip_rd_markup` whose content is recursed. -/
def listCmds : List String := ["describe", "itemize", "enumerate"]

/-- All command names `strip_rd_markup` recognizes explicitly (every other
name falls to the unknown-command arm). -/
def recognizedCmds : List String :=
  keepCmds ++ ["href", "url", "linkS4class", "linkS3class"] ++ dropCmds ++
  ["item", "describe", "itemize", "enumerate", "verb", "dots", "ldots",
   "R", "cr", "tab"]

/-- Keep-content arm of the stripper: consume one brace group (if present)
and emit its content raw; also used by the class-link commands. -/
def keepArm (rec : List Char → List Char) (rest : List Char) : List Char :=
  let r1 := rest.dropWhile isWs
  if r1.head? = some obr then
    let er := extractBraceGo 1 r1.tail
    er.1 ++ rec er.2
  else rec r1

/-- Link arm (`href`/`url`): with two brace groups, emit the recursively
stripped second; with one, emit the first raw. -/
def hrefArm (rec : List Char → List Char) (rest : List Char) : List Char :=
  let r1 := rest.dropWhile isWs
  if r1.head? = some obr then
    let er := extractBraceGo 1 r1.tail
    let r3 := er.2.dropWhile isWs
    if r3.head? = some obr then
      let er2 := extractBraceGo 1 r3.tail
      rec er2.1 ++ rec er2.2
    else er.1 ++ rec r3
  else rec r1

/-- Drop arm: consume one brace group (if present) and emit nothing. -/
def dropArm (rec : List Char → List Char) (rest : List Char) : List Char :=
  let r1 := rest.dropWhile isWs
  if r1.head? = some obr then
    rec (extractBraceGo 1 r1.tail).2
  else rec r1

/-- Item arm: discard the first brace group, recursively strip and emit the
second, followed by a space. -/
def itemArm (rec : List Char → List Char) (rest : List Char) : List Char :=
  let r1 := rest.dropWhile isWs
  let r2 := if r1.head? = some obr then (extractBraceGo 1 r1.tail).2 else r1
  let r3 := r2.dropWhile isWs
  if r3.head? = some obr then
    let er := extractBraceGo 1 r3.tail
    rec er.1 ++ ' ' :: rec er.2
  else rec r3

/-- Recurse-content arm: consume one brace group (if present), recursively
strip it and emit it in place.  Used by the list containers and by the
unknown-command fallback. -/
def recurseArm (rec : List Char → List Char) (rest : List Char) : List Char :=
  let r1 := rest.dropWhile isWs
  if r1.head? = some obr then
    let er := extractBraceGo 1 r1.tail
    rec er.1 ++ rec er.2
  else rec r1

/-- Verb arm: brace- or arbitrary-delimiter-quoted raw content. -/
def verbArm (rec : List Char → List Char) (rest : List Char) : List Char :=
  let r1 := rest.dropWhile isWs
  match r1 with
  | [] => []
  | d :: r2 =>
    if d = obr then
      let er := extractBraceGo 1 r2
      er.1 ++ rec er.2
    else
      r2.takeWhile (fun x => x ≠ d) ++
        rec ((r2.dropWhile (fun x => x ≠ d)).drop 1)

/-- The command dispatch of `strip_rd_markup` (the backslash branch of the
source's loop), parameterized by the recursive call `rec` so that the fuelled
scanner below stays small.  `cmd` is the collected command name and `rest`
the characters after it. -/
def stripCmd (rec : List Char → List Char) (cmd : String) (rest : List Char) :
    List Char :=
  if keepCmds.contains cmd || cmd = "linkS4class" || cmd = "linkS3class" then
    keepArm rec rest
  else if cmd = "href" || cmd = "url" then hrefArm rec rest
  else if dropCmds.contains cmd then dropArm rec rest
  else if cmd = "item" then itemArm rec rest
  else if listCmds.contains cmd then recurseArm rec rest
  else if cmd = "verb" then verbArm rec rest
  else if cmd = "dots" || cmd = "ldots" then '.' :: '.' :: '.' :: rec rest
  else if cmd = "R" then 'R' :: rec rest
  else if cmd = "cr" || cmd = "tab" then ' ' :: rec rest
  else recurseArm rec rest

/-- `strip_rd_markup`, fuelled.  Fuel is consumed on every character step;
fuel equal to the input length always suffices (each step consumes at least
one character, and recursive calls act on disjoint pieces of the remainder). -/
def stripGo : Nat → List Char → List Char
  | _, [] => []
  | 0, _ :: _ => []
  | f + 1, c :: cs =>
    if c = bsl then
      stripCmd (fun x => stripGo f x) (String.mk (cs.takeWhile isCmdChar))
        (cs.dropWhile isCmdChar)
    else if c = obr || c = cbr then stripGo f cs
    else c :: stripGo f cs

/-- `strip_rd_markup`: strip all Rd markup commands, keeping their content
where appropriate. -/
def strip_rd_markup (s : String) : String :=
  String.mk (stripGo s.toList.length s.toList)

/-- Rust `str::split_whitespace`, single pass with an accumulator. -/
def splitWsGo : List Char → List Char → List (List Char)
  | acc, [] => if acc = [] then [] else [acc.reverse]
  | acc, c :: cs =>
    if isWs c then
      if acc = [] then splitWsGo [] cs else acc.reverse :: splitWsGo [] cs
    else splitWsGo (c :: acc) cs

/-- Join words with single spaces (`join(" ")`). -/
def joinWords : List (List Char) → List Char
  | [] => []
  | [w] => w
  | w :: ws => w ++ ' ' :: joinWords ws

/-- `sanitize`: strip Rd markup, then collapse all whitespace runs to single
spaces and trim the ends. -/
def sanitize (s : String) : String :=
  String.mk (joinWords (splitWsGo [] (strip_rd_markup s).toList))

/-- The seven recognized section names, in the order the source tests them. -/
def sectionNames : List String :=
  ["title", "description", "value", "arguments", "examples", "usage", "details"]

/-- The opening marker of a section: backslash, name, opening brace. -/
def secPfx (nm : String) : List Char := bsl :: nm.toList ++ [obr]

/-- State of the section extractor: the section being accumulated, its
content so far, the running brace depth, and the finished sections. -/
structure SecState where
  cur : String
  content : List Char
  depth : Int
  secs : List (String × String)

/-- One line of `extract_rd_sections`. -/
def secStep (st : SecState) (line : List Char) : SecState :=
  let trimmed := trimChars line
  if st.depth = 0 then
    match sectionNames.find? (fun nm => (secPfx nm).isPrefixOf trimmed) with
    | some nm =>
      let afterPfx := trimmed.drop (secPfx nm).length
      { st with cur := nm, content := afterPfx, depth := 1 + countBracesL afterPfx }
    | none => st
  else
    let content := if st.content = [] then trimmed else st.content ++ '\n' :: trimmed
    let depth := st.depth + countBracesL trimmed
    if depth ≤ 0 then
      { cur := "", content := [], depth := 0,
        secs := insertBT st.secs st.cur (String.mk (dropEndWhile (· = cbr) content)) }
    else { st with content := content, depth := depth }

/-- `extract_rd_sections`: extract all sections from Rd content.  A section
still open at end of input is dropped. -/
def extract_rd_sections (content : String) : List (String × String) :=
  ((rustLinesList content.toList).foldl secStep ⟨"", [], 0, []⟩).secs

/-- The literal marker that triggers an item in `parse_arguments_section`. -/
def itemPat : List Char := bsl :: 'i' :: 't' :: 'e' :: 'm' :: [obr]

/-- Mode of the argument-section scanner: scanning for an item marker,
collecting the name between its braces, awaiting the description's opening
brace, or collecting the description. -/
inductive ArgMode where
  | scanning
  | collectName (depth : Nat) (acc : List Char)
  | awaitOpen (nameAcc : List Char)
  | inDesc (nameAcc : List Char) (descAcc : List Char) (depth : Nat)

/-- State of the argument-section scanner. -/
structure ArgState where
  mode : ArgMode
  buffer : List Char
  args : List (String × String)

/-- Description-collection step of `parse_arguments_section` (the `in_item`
branch of the source's loop; the character has been pushed to the buffer). -/
def argDescStep (st : ArgState) (c : Char) : ArgState :=
  match st.mode with
  | ArgMode.inDesc nm desc d =>
    let buf := st.buffer ++ [c]
    if c = obr then
      { mode := ArgMode.inDesc nm (desc ++ [c]) (d + 1), buffer := buf, args := st.args }
    else if c = cbr then
      if d = 1 then
        let nmT := trimChars nm
        { mode := ArgMode.scanning, buffer := [],
          args :=
            if nmT = [] then st.args
            else insertBT st.args (String.mk nmT) (sanitize (String.mk (trimChars desc))) }
      else
        { mode := ArgMode.inDesc nm (desc ++ [c]) (d - 1), buffer := buf, args := st.args }
    else
      { mode := ArgMode.inDesc nm (desc ++ [c]) d, buffer := buf, args := st.args }
  | _ => st

/-- One character of `parse_arguments_section`.  The source's inner loops
(name collection; whitespace skip before the description's brace) appear as
the `collectName` and `awaitOpen` modes; characters consumed by those inner
loops are not pushed to the buffer, exactly as in the source. -/
def argStep (st : ArgState) (c : Char) : ArgState :=
  match st.mode with
  | ArgMode.scanning =>
    let buf := st.buffer ++ [c]
    if itemPat.isSuffixOf buf then
      { st with mode := ArgMode.collectName 1 [], buffer := [] }
    else { st with buffer := buf }
  | ArgMode.collectName d acc =>
    if c = obr then { st with mode := ArgMode.collectName (d + 1) (acc ++ [c]) }
    else if c = cbr then
      if d = 1 then { st with mode := ArgMode.awaitOpen acc }
      else { st with mode := ArgMode.collectName (d - 1) (acc ++ [c]) }
    else { st with mode := ArgMode.collectName d (acc ++ [c]) }
  | ArgMode.awaitOpen nm =>
    if c = obr then { st with mode := ArgMode.inDesc nm [] 1 }
    else if isWs c then st
    else argDescStep { st with mode := ArgMode.inDesc nm [] 1 } c
  | ArgMode.inDesc _ _ _ => argDescStep st c

/-- `parse_arguments_section`: extract the item name/description pairs of an
arguments section. -/
def parse_arguments_section (content : String) : List (String × String) :=
  (content.toList.foldl argStep ⟨ArgMode.scanning, [], []⟩).args

/-- The four example-wrapper directives removed by `strip_rd_directives`. -/
def dirCmds : List String := ["dontrun", "donttest", "dontshow", "donteval"]

/-- Mode of the directive stripper: plain copying, collecting a command name
after a backslash, or awaiting the opening brace of a matched directive. -/
inductive PdMode where
  | plain
  | dirName (acc : List Char)
  | await

/-- State of the directive stripper: mode, the depth of the brace group being
unwrapped (`brace_depth_to_skip`), and the output. -/
structure PdState where
  mode : PdMode
  skip : Nat
  out : List Char

/-- The plain-mode dispatch of `strip_rd_directives` (main loop body for a
character that does not continue a command name). -/
def pdPlain (st : PdState) (c : Char) : PdState :=
  if c = bsl then { st with mode := PdMode.dirName [] }
  else if st.skip > 0 then
    if c = obr then { st with skip := st.skip + 1, out := st.out ++ [c] }
    else if c = cbr then
      if st.skip = 1 then { st with skip := 0 }
      else { st with skip := st.skip - 1, out := st.out ++ [c] }
    else { st with out := st.out ++ [c] }
  else { st with out := st.out ++ [c] }

/-- Awaiting the opening brace after a matched directive: the brace is
consumed and resets the unwrap depth to 1; whitespace is skipped; any other
character ends the wait and is processed plainly. -/
def pdAwaitStep (st : PdState) (c : Char) : PdState :=
  if c = obr then { st with mode := PdMode.plain, skip := 1 }
  else if isWs c then st
  else pdPlain { st with mode := PdMode.plain } c

/-- One character of `strip_rd_directives`. -/
def pdStep (st : PdState) (c : Char) : PdState :=
  match st.mode with
  | PdMode.plain => pdPlain st c
  | PdMode.dirName acc =>
    if c.isAlpha then { st with mode := PdMode.dirName (acc ++ [c]) }
    else if dirCmds.contains (String.mk acc) then
      pdAwaitStep { st with mode := PdMode.await } c
    else pdPlain { st with mode := PdMode.plain, out := st.out ++ bsl :: acc } c
  | PdMode.await => pdAwaitStep st c

/-- End-of-input resolution of the directive stripper: an unresolved
non-directive command name is emitted. -/
def pdFinish (st : PdState) : List Char :=
  match st.mode with
  | PdMode.dirName acc =>
    if dirCmds.contains (String.mk acc) then st.out else st.out ++ bsl :: acc
  | _ => st.out

/-- `strip_rd_directives`: remove example-wrapper directives, keeping the
content inside their braces. -/
def strip_rd_directives (s : String) : String :=
  String.mk (pdFinish (s.toList.foldl pdStep ⟨PdMode.plain, 0, []⟩))

/-- `is_valid_example`: a block is valid when its trimmed text is nonempty,
not a lone brace, and does not start with a backslash. -/
def is_valid_example (block : String) : Bool :=
  let t := String.mk (trimChars block.toList)
  t ≠ "" && t ≠ "\x7d" && t ≠ "\x7b" && !(t.toList.head? = some bsl)

/-- State of the example segmenter: finished blocks, the block being built,
and the parenthesis/string scanner state, which persists across lines. -/
structure ExState where
  examples : List String
  current : List Char
  depth : Nat
  inString : Bool
  prev : Char

/-- Per-character parenthesis/string tracking of `parse_example_blocks`.
The depth is a `usize` with `saturating_sub`, so Nat subtraction is exact. -/
def exCharStep (st : ExState) (c : Char) : ExState :=
  let inS := if c = '"' && st.prev ≠ bsl then !st.inString else st.inString
  let dep :=
    if !inS then
      if c = '(' then st.depth + 1
      else if c = ')' then st.depth - 1
      else st.depth
    else st.depth
  { st with inString := inS, depth := dep, prev := c }

/-- Close the current block: trim it, keep it only if valid. -/
def exFlush (st : ExState) : ExState :=
  let block := String.mk (trimChars st.current)
  if is_valid_example block then
    { st with examples := st.examples ++ [block], current := [] }
  else { st with current := [] }

/-- One line of `parse_example_blocks`. -/
def exLineStep (st : ExState) (line : List Char) : ExState :=
  let trimmed := trimChars line
  if trimmed = [] then
    if st.current ≠ [] ∧ st.depth = 0 then exFlush st else st
  else if trimmed.head? = some '#' ∧ st.current = [] then st
  else
    let st1 := { st with current := if st.current = [] then trimmed else st.current ++ '\n' :: trimmed }
    let st2 := trimmed.foldl exCharStep st1
    if st2.depth = 0 ∧ trimmed.getLast? ≠ some ',' ∧ trimmed.getLast? ≠ some '(' then
      if trimmed.getLast?.getD ' ' = ')' ∨ ¬ trimmed.contains '(' then exFlush st2 else st2
    else st2

/-- `parse_example_blocks`: strip wrapper directives, then split the example
text into blocks at balanced boundaries; the last open block is flushed at
end of input. -/
def parse_example_blocks (content : String) : List String :=
  let cleaned := strip_rd_directives content
  let st := (rustLinesList cleaned.toList).foldl exLineStep ⟨[], [], 0, false, ' '⟩
  (if st.current ≠ [] then exFlush st else st).examples

/-- Parsed Rd documentation (struct `RdDoc`). -/
structure RdDoc where
  title : Option String
  description : Option String
  arguments : List (String × String)
  value : Option String
  examples : List String
deriving DecidableEq

/-- `parse_rd_content`: extract sections, then process each recognized one.
The source wraps the result in an `anyhow::Result` but has no error path. -/
def parse_rd_content (content : String) : RdDoc :=
  let sections := extract_rd_sections content
  { title := (lookupBT sections ("title")).map sanitize
  , description := (lookupBT sections ("description")).map sanitize
  , arguments :=
      match lookupBT sections ("arguments") with
      | some a => parse_arguments_section a
      | none => []
  , value := (lookupBT sections ("value")).map sanitize
  , examples :=
      match lookupBT sections ("examples") with
      | some e => parse_example_blocks e
      | none => [] }

/-- A usage example attached to a function record (struct `Example`). -/
structure Example where
  code : String
  shows : List String
deriving DecidableEq

/-- A function record (struct `FunctionRecord`; maps as association lists). -/
structure FunctionRecord where
  name : String
  exported : Bool
  signature : String
  purpose : Option String
  role : Option String
  arguments : List (String × String)
  argTypes : List (String × String)
  returns : Option String
  returnType : Option String
  constraints : List String
  examples : List Example
  related : List String
deriving DecidableEq

/-- The four assignment patterns the signature scanner searches for. -/
def fnPatterns : List String :=
  ["<- function(", "= function(", "<-function(", "=function("]

/-- First index at which `pat` occurs in `l` (Rust `str::find`). -/
def findSubstr : List Char → List Char → Option Nat
  | l, pat =>
    if pat.isPrefixOf l then some 0
    else
      match l with
      | [] => none
      | _ :: t => (findSubstr t pat).map (· + 1)

/-- Net parenthesis count of a fragment (`i32` adjustments, order free). -/
def countParens (l : List Char) : Int :=
  (l.countP (· = '(') : Int) - (l.countP (· = ')') : Int)

/-- Last index of `c` in `l` (Rust `str::rfind`). -/
def lastIdxOf (l : List Char) (c : Char) : Option Nat :=
  match l.reverse.findIdx? (· = c) with
  | some k => some (l.length - 1 - k)
  | none => none

/-- The signature-accumulation loop of `extract_functions_from_r`: while the
running count is positive, re-scan the whole accumulated text (adding its net
parenthesis count to the current depth, as the source does) and append the
next line, trimmed, with no separator. -/
def sigLoop (sig : List Char) (depth : Int) (rem : List (List Char)) : List Char :=
  if depth ≤ 0 then sig
  else
    let d := depth + countParens sig
    if d ≤ 0 then sig
    else
      match rem with
      | [] => sig
      | l :: rest => sigLoop (sig ++ trimChars l) d rest

/-- Try one line of the signature scanner: first matching pattern whose
left-hand name passes the checks yields a record. -/
def tryLine (docs : List (String × RdDoc)) (exports : List String)
    (includeInternal : Bool) (line : List Char) (rest : List (List Char)) :
    Option FunctionRecord :=
  let trimmed := trimChars line
  if trimmed.head? = some '#' then none
  else
    fnPatterns.findSome? (fun pat =>
      match findSubstr trimmed pat.toList with
      | none => none
      | some pos =>
        let nm := String.mk (trimChars (trimmed.take pos))
        if nm = "" || nm.toList.contains ' ' then none
        else
          let exported := exports.contains nm || exports = []
          if !includeInternal && nm.toList.head? = some '.' then none
          else if !includeInternal && !exported then none
          else
            let sig := sigLoop (trimmed.drop (pos + pat.length)) 1 rest
            let argsEnd := (lastIdxOf sig ')').getD sig.length
            let args := String.mk (trimChars (sig.take argsEnd))
            let doc := lookupBT docs nm
            some
              { name := nm
              , exported := exported
              , signature := nm ++ "(" ++ args ++ ")"
              , purpose := doc.bind (fun d => d.title)
              , role := none
              , arguments := (doc.map (fun d => d.arguments)).getD []
              , argTypes := []
              , returns := doc.bind (fun d => d.value)
              , returnType := none
              , constraints := []
              , examples :=
                  (doc.map (fun d => (d.examples.take 3).map (fun e => ⟨e, []⟩))).getD []
              , related := [] })

/-- The per-line loop of `extract_functions_from_r`: each line may contribute
at most one record, and every line is considered in turn. -/
def extractFnsGo (docs : List (String × RdDoc)) (exports : List String)
    (includeInternal : Bool) : List (List Char) → List FunctionRecord
  | [] => []
  | line :: rest =>
    match tryLine docs exports includeInternal line rest with
    | some f => f :: extractFnsGo docs exports includeInternal rest
    | none => extractFnsGo docs exports includeInternal rest

/-- `extract_functions_from_r`: scan R source text for assignment-style
function definitions. -/
def extract_functions_from_r (content : String) (exports : List String)
    (rd_docs : List (String × RdDoc)) (include_internal : Bool) :
    List FunctionRecord :=
  extractFnsGo rd_docs exports include_internal (rustLinesList content.toList)

/-- Modelled from the spec claim (C6): the net parenthesis depth of a block
over its characters. -/
def claimNetParens (b : String) : Int :=
  (b.toList.countP (· = '(') : Int) - (b.toList.countP (· = ')') : Int)

/-- Modelled from the spec claim (C6): the number of unescaped double quotes
in a block (a quote whose preceding character is not a backslash). -/
def claimQuotesGo : Char → List Char → Nat
  | _, [] => 0
  | prev, c :: cs =>
    (if c = '"' ∧ prev ≠ bsl then 1 else 0) + claimQuotesGo c cs

/-- Modelled from the spec claim (C6): unescaped quote count of a block. -/
def claimQuotes (b : String) : Nat := claimQuotesGo ' ' b.toList

/-- A concrete record used to witness the example cap. -/
def cap3Record : FunctionRecord :=
  { name := "f", exported := true, signature := "f(x)", purpose := none,
    role := none, arguments := [], argTypes := [], returns := none,
    returnType := none, constraints := [],
    examples := [⟨"e1", []⟩, ⟨"e2", []⟩, ⟨"e3", []⟩], related := [] }

/-- A concrete documentation map with four example blocks for `f`. -/
def cap3Docs : List (String × RdDoc) :=
  [("f", ⟨none, none, [], none, ["e1", "e2", "e3", "e4"]⟩)]

/-- The opening line of a description section, as a character list. -/
def descOpenLine : List Char := ("\x5cdescription\x7b").toList

/-- Brace balance relative to a starting depth: the text returns the depth
to zero exactly at its end and never dips below zero. -/
def chkBal : Nat → List Char → Bool
  | r, [] => r == 0
  | r, c :: cs =>
    if c = obr then chkBal (r + 1) cs
    else if c = cbr then
      match r with
      | 0 => false
      | r' + 1 => chkBal r' cs
    else chkBal r cs

/-- The canonical arguments-section text for a list of items: each item is
`\item{NAME}{DESC}` on its own line. -/
def argsText : List (String × String) → String
  | [] => ""
  | (n, d) :: rest =>
    "\x5citem\x7b" ++ n ++ "\x7d\x7b" ++ d ++ "\x7d\n" ++ argsText rest

/-- Well-formedness of one item: the name is trim-fixed, nonempty and
brace-free; the description is brace-balanced and trim-fixed. -/
def wfItem (p : String × String) : Prop :=
  trimChars p.1.toList = p.1.toList ∧ p.1.toList ≠ [] ∧
  obr ∉ p.1.toList ∧ cbr ∉ p.1.toList ∧
  chkBal 0 p.2.toList = true ∧ trimChars p.2.toList = p.2.toList

/-- Modelled from the spec claim (C9): the text contains no recognized
inline command — at every backslash, the maximal following run of name
characters is not a recognized command name. -/
def noRecogB : List Char → Bool
  | [] => true
  | c :: cs =>
    if c = bsl then
      !(recognizedCmds.contains (String.mk (cs.takeWhile isCmdChar))) &&
        noRecogB cs
    else noRecogB cs

/-- No markup-special character (backslash or brace) occurs in the text. -/
def noSpec (l : List Char) : Prop :=
  ∀ c ∈ l, c ≠ bsl ∧ c ≠ obr ∧ c ≠ cbr

/-- The whitespace-collapsing phase of `sanitize`, on character lists. -/
def collapseL (l : List Char) : List Char :=
  joinWords (splitWsGo [] l)

/-- C1: on the single-line input of the title/description round-trip
scenario, the section extractor never finalizes a section (a section whose
braces close on its opening line is only stored by the depth>0 accumulation
branch, which is never reached), so `parse_rd_content` returns neither the
title "Sum two numbers" nor the description "Adds x and y." — it returns an
entirely empty document. -/
theorem parse_rd_content_drops_single_line_sections :
    extract_rd_sections
        "\x5ctitle\x7bSum two numbers\x7d\x5cdescription\x7bAdds \x5ccode\x7bx\x7d and \x5ccode\x7by\x7d.\x7d" = [] ∧
    parse_rd_content
        "\x5ctitle\x7bSum two numbers\x7d\x5cdescription\x7bAdds \x5ccode\x7bx\x7d and \x5ccode\x7by\x7d.\x7d" =
      { title := none, description := none, arguments := [], value := none,
        examples := [] } := by
  constructor
  · rfl
  · rfl

/-- C2 counterexample: on the unterminated-section scenario input, the line
with the well-formed description is absorbed into the still-open title
accumulation (its net brace delta is zero, so the depth never returns to
zero), and no description section is produced, contrary to the claim that it
still parses to "OK". -/
theorem extract_rd_sections_unterminated_swallows_description :
    lookupBT
        (extract_rd_sections "\x5ctitle\x7bBroken\n\x5cdescription\x7bOK\x7d")
        ("description") = none := by
  rfl

/-- C2 amended: an unterminated `title` section yields no title section and
no failure, but the subsequent well-formed `description` line is consumed
into the unterminated accumulation, so no section at all is returned. -/
theorem extract_rd_sections_unterminated_drops_all :
    extract_rd_sections "\x5ctitle\x7bBroken\n\x5cdescription\x7bOK\x7d" = [] ∧
    lookupBT
        (extract_rd_sections "\x5ctitle\x7bBroken\n\x5cdescription\x7bOK\x7d")
        ("title") = none := by
  constructor
  · rfl
  · rfl

/-- C3 counterexample: with two complete `description` sections, the kept
content is that of the second (last) occurrence, not the first: `insert`
overwrites the earlier entry. -/
theorem extract_rd_sections_duplicate_first_lost :
    extract_rd_sections
        "\x5cdescription\x7b\nFirst\n\x7d\n\x5cdescription\x7b\nSecond\n\x7d" =
      [("description", "Second\n")] ∧
    ("Second\n" : String) ≠ "First\n" := by
  constructor
  · rfl
  · decide

/-- C6 counterexample: the segmenter returns the block `)` (net parenthesis
depth -1: the saturating counter treats the excess closing parenthesis as
depth zero) and the block consisting of one double quote (an odd number of
unescaped quotes: the final flush does not check the string state), so the
balance invariant claimed for every returned block is false. -/
theorem parse_example_blocks_unbalanced_blocks :
    parse_example_blocks ")" = [")"] ∧ claimNetParens ")" ≠ 0 ∧
    parse_example_blocks "\x22" = ["\x22"] ∧ claimQuotes "\x22" % 2 ≠ 0 := by
  refine ⟨by rfl, by decide, by rfl, by decide⟩

/-- C7 counterexample: on the multi-line signature scenario, the scanner
appends the trimmed continuation line with no separator, so the parameter
text is `x,y = 1` — not `x, y = 1` as claimed. -/
theorem extract_functions_from_r_no_space_join :
    (extract_functions_from_r "foo <- function(x,\n  y = 1) \x7b" [] [] false).map
        (fun f => (f.name, f.signature)) = [("foo", "foo(x,y = 1)")] ∧
    ("foo(x,y = 1)" : String) ≠ "foo(x, y = 1)" := by
  constructor
  · rfl
  · decide

/-- C7 amended: the scenario source yields exactly one record, named `foo`,
exported, with signature `foo(x,y = 1)` (continuation lines are trimmed and
concatenated without separator) and no documentation fields. -/
theorem extract_functions_from_r_multiline_signature :
    extract_functions_from_r "foo <- function(x,\n  y = 1) \x7b" [] [] false =
      [{ name := "foo", exported := true, signature := "foo(x,y = 1)",
         purpose := none, role := none, arguments := [], argTypes := [],
         returns := none, returnType := none, constraints := [],
         examples := [], related := [] }] := by
  rfl

theorem exCharStep_examples (st : ExState) (c : Char) :
    (exCharStep st c).examples = st.examples := rfl

theorem exCharStep_current (st : ExState) (c : Char) :
    (exCharStep st c).current = st.current := rfl

theorem foldl_exCharStep_examples (l : List Char) :
    ∀ st : ExState, (l.foldl exCharStep st).examples = st.examples := by
  induction l with
  | nil => intro st; rfl
  | cons c cs ih => intro st; rw [List.foldl_cons, ih, exCharStep_examples]

/-- Every block appended by a flush passes the validity check. -/
theorem exFlush_valid (st : ExState)
    (h : ∀ x ∈ st.examples, is_valid_example x = true) :
    ∀ x ∈ (exFlush st).examples, is_valid_example x = true := by
  intro x hx
  simp only [exFlush] at hx
  split at hx
  · next hv =>
    rcases List.mem_append.mp hx with hx | hx
    · exact h x hx
    · rcases List.mem_singleton.mp hx with rfl
      exact hv
  · exact h x hx

/-- A conditional flush preserves validity of the block list. -/
theorem exMaybeFlush_valid (s : ExState) (P Q : Prop) [Decidable P] [Decidable Q]
    (h : ∀ x ∈ s.examples, is_valid_example x = true) :
    ∀ x ∈ (if P then (if Q then exFlush s else s) else s).examples,
      is_valid_example x = true := by
  split
  · split
    · exact exFlush_valid s h
    · exact h
  · exact h

/-- The final conditional flush preserves validity of the block list. -/
theorem exFinal_valid (s : ExState) (P : Prop) [Decidable P]
    (h : ∀ x ∈ s.examples, is_valid_example x = true) :
    ∀ x ∈ (if P then exFlush s else s).examples, is_valid_example x = true := by
  split
  · exact exFlush_valid s h
  · exact h

/-- One line of the segmenter preserves validity of the block list. -/
theorem exLineStep_valid (st : ExState) (line : List Char)
    (h : ∀ x ∈ st.examples, is_valid_example x = true) :
    ∀ x ∈ (exLineStep st line).examples, is_valid_example x = true := by
  simp only [exLineStep]
  split
  · split
    · exact exFlush_valid st h
    · exact h
  · split
    · exact h
    · exact exMaybeFlush_valid _ _ _ (by rw [foldl_exCharStep_examples]; exact h)

theorem foldl_exLineStep_valid (lines : List (List Char)) :
    ∀ st : ExState, (∀ x ∈ st.examples, is_valid_example x = true) →
      ∀ x ∈ (lines.foldl exLineStep st).examples, is_valid_example x = true := by
  induction lines with
  | nil => intro st h; exact h
  | cons l ls ih => intro st h; exact ih _ (exLineStep_valid st l h)

/-- C6 amended: the invariant actually enforced on every returned example
block is `is_valid_example` — nonempty after trimming, not a lone stray
brace, and not beginning with a backslash.  (Net parenthesis balance and
closed string state are not guaranteed: see the counterexample.) -/
theorem parse_example_blocks_blocks_valid (content : String) (b : String)
    (hb : b ∈ parse_example_blocks content) : is_valid_example b = true := by
  have hinv : ∀ x ∈ ((rustLinesList (strip_rd_directives content).toList).foldl
      exLineStep ⟨[], [], 0, false, ' '⟩).examples, is_valid_example x = true :=
    foldl_exLineStep_valid _ _ (by intro x hx; cases hx)
  simp only [parse_example_blocks] at hb
  exact exFinal_valid _ _ hinv b hb

theorem parse_example_blocks_blocks_valid_witness :
    ("x" : String) ∈ parse_example_blocks "x" ∧ is_valid_example "x" = true :=
  ⟨by decide, parse_example_blocks_blocks_valid "x" "x" (by decide)⟩

theorem splitNl_no_nl (cs : List Char) (h : '\n' ∉ cs) : splitNl cs = [cs] := by
  induction cs with
  | nil => rfl
  | cons c cs ih =>
    have hc : c ≠ '\n' := fun hc => h (hc ▸ List.mem_cons_self c cs)
    have hcs : '\n' ∉ cs := fun hm => h (List.mem_cons_of_mem c hm)
    simp only [splitNl, if_neg hc, ih hcs]

theorem getLast_replicate (n : Nat) (c : Char) (hn : 0 < n) :
    (List.replicate n c).getLast? = some c := by
  induction n with
  | zero => cases hn
  | succ n ih =>
    cases n with
    | zero => rfl
    | succ m =>
      rw [List.replicate_succ, List.replicate_succ, List.getLast?_cons_cons,
        ← List.replicate_succ]
      exact ih (Nat.succ_pos m)

theorem rustLinesList_replicate_close (n : Nat) (hn : 0 < n) :
    rustLinesList (List.replicate n ')') = [List.replicate n ')'] := by
  have hne : List.replicate n ')' ≠ [] := by
    cases n with
    | zero => exact absurd hn (by omega)
    | succ m => simp [List.replicate_succ]
  have hnn : '\n' ∉ List.replicate n ')' := by
    intro h
    have := List.eq_of_mem_replicate h
    exact absurd this (by decide)
  have hlast := getLast_replicate n ')' hn
  simp [rustLinesList, hne, splitNl_no_nl _ hnn, hlast]

theorem foldl_exCharStep_close (n : Nat) :
    ∀ st : ExState, st.depth = 0 → st.inString = false →
      ((List.replicate n ')').foldl exCharStep st).depth = 0 ∧
      ((List.replicate n ')').foldl exCharStep st).inString = false ∧
      ((List.replicate n ')').foldl exCharStep st).examples = st.examples ∧
      ((List.replicate n ')').foldl exCharStep st).current = st.current := by
  induction n with
  | zero => intro st h1 h2; exact ⟨h1, h2, rfl, rfl⟩
  | succ n ih =>
    intro st h1 h2
    rw [List.replicate_succ, List.foldl_cons]
    have hstep : exCharStep st ')' =
        { st with inString := false, depth := 0, prev := ')' } := by
      simp [exCharStep, h1, h2]
    rw [hstep]
    exact ih _ rfl rfl

theorem trimChars_no_ws (l : List Char) (h : ∀ c ∈ l, isWs c = false) :
    trimChars l = l := by
  have h1 : l.dropWhile isWs = l := by
    cases l with
    | nil => rfl
    | cons c cs =>
      rw [List.dropWhile_cons]
      simp [h c (List.mem_cons_self c cs)]
  have h2 : l.reverse.dropWhile isWs = l.reverse := by
    cases hr : l.reverse with
    | nil => rfl
    | cons c cs =>
      rw [List.dropWhile_cons]
      have : c ∈ l := by
        rw [← List.mem_reverse, hr]
        exact List.mem_cons_self c cs
      simp [h c this]
  simp only [trimChars, dropEndWhile, h1, h2, List.reverse_reverse]

theorem pd_foldl_replicate_close (n : Nat) :
    ∀ out : List Char,
      (List.replicate n ')').foldl pdStep ⟨PdMode.plain, 0, out⟩ =
        ⟨PdMode.plain, 0, out ++ List.replicate n ')'⟩ := by
  induction n with
  | zero => intro out; simp
  | succ n ih =>
    intro out
    rw [List.replicate_succ, List.foldl_cons]
    have hb : (')' = bsl) = False := by simp [bsl]
    have hstep : pdStep ⟨PdMode.plain, 0, out⟩ ')' =
        ⟨PdMode.plain, 0, out ++ [')']⟩ := by
      simp [pdStep, pdPlain, hb]
    rw [hstep, ih, List.append_assoc]
    rfl

/-- The directive stripper leaves a run of closing parentheses unchanged. -/
theorem strip_rd_directives_replicate_close (n : Nat) :
    strip_rd_directives (String.mk (List.replicate n ')')) =
      String.mk (List.replicate n ')') := by
  simp only [strip_rd_directives]
  have : (String.mk (List.replicate n ')')).toList = List.replicate n ')' := rfl
  rw [this, pd_foldl_replicate_close n []]
  rfl

/-- C10: the example segmenter's parenthesis counter saturates at zero — a
closing parenthesis at depth zero (outside a string) leaves the depth at
zero — and consequently an input of arbitrarily many excess closing
parentheses is segmented without underflow or failure: the whole run is
returned as one block with the counter pinned at zero. -/
theorem parse_example_blocks_saturating (n : Nat) (hn : 0 < n) :
    (∀ st : ExState, st.depth = 0 → st.inString = false →
        (exCharStep st ')').depth = 0) ∧
    parse_example_blocks (String.mk (List.replicate n ')')) =
      [String.mk (List.replicate n ')')] := by
  constructor
  · intro st h1 h2
    simp [exCharStep, h1, h2]
  · have hnw : ∀ c ∈ List.replicate n ')', isWs c = false := by
      intro c hc
      rw [List.eq_of_mem_replicate hc]
      decide
    have htr := trimChars_no_ws (List.replicate n ')') hnw
    have hne : List.replicate n ')' ≠ [] := by
      cases n with
      | zero => exact absurd hn (by omega)
      | succ m => simp [List.replicate_succ]
    have hlast := getLast_replicate n ')' hn
    simp only [parse_example_blocks, strip_rd_directives_replicate_close]
    have hlines : rustLinesList (String.mk (List.replicate n ')')).toList =
        [List.replicate n ')'] := rustLinesList_replicate_close n hn
    rw [hlines, List.foldl_cons, List.foldl_nil]
    have hhead : (List.replicate n ')').head? = some ')' := by
      cases n with
      | zero => exact absurd hn (by omega)
      | succ m => rfl
    have hvalid : is_valid_example (String.mk (List.replicate n ')')) = true := by
      simp only [is_valid_example]
      rw [show (String.mk (List.replicate n ')')).toList = List.replicate n ')'
          from rfl, htr]
      simp only [Bool.and_eq_true, decide_eq_true_eq, Bool.not_eq_true',
        decide_eq_false_iff_not]
      refine ⟨⟨⟨?_, ?_⟩, ?_⟩, ?_⟩
      · intro h
        have hl : List.replicate n ')' = [] := congrArg String.toList h
        exact hne hl
      · intro h
        have hl := congrArg String.toList h
        have : (List.replicate n ')').head? = ("\x7d" : String).toList.head? :=
          congrArg List.head? hl
        rw [hhead] at this
        exact absurd this (by decide)
      · intro h
        have hl := congrArg String.toList h
        have : (List.replicate n ')').head? = ("\x7b" : String).toList.head? :=
          congrArg List.head? hl
        rw [hhead] at this
        exact absurd this (by decide)
      · show ¬(List.replicate n ')').head? = some bsl
        rw [hhead]
        decide
    have hchars := foldl_exCharStep_close n ⟨[], List.replicate n ')', 0, false, ' '⟩
      rfl rfl
    obtain ⟨hd2, hs2, hex2, hcur2⟩ := hchars
    have hline : (exLineStep ⟨[], [], 0, false, ' '⟩ (List.replicate n ')')).examples
          = [String.mk (List.replicate n ')')] ∧
        (exLineStep ⟨[], [], 0, false, ' '⟩ (List.replicate n ')')).current = [] := by
      simp only [exLineStep, htr]
      rw [if_neg (by simp [hne])]
      rw [if_neg (by rw [hhead]; simp)]
      simp only [if_true]
      rw [if_pos (by rw [hd2, hlast]; refine ⟨rfl, by decide, by decide⟩)]
      rw [if_pos (Or.inl (by rw [hlast]; rfl))]
      simp only [exFlush, hcur2, htr, hvalid, if_true, hex2]
      constructor <;> first | rfl | trivial
    rw [if_neg (by rw [hline.2]; simp), hline.1]

/-- C10 witness at a concrete excess-closing-parenthesis input. -/
theorem parse_example_blocks_saturating_witness :
    (0 : Nat) < 3 ∧
    ((∀ st : ExState, st.depth = 0 → st.inString = false →
        (exCharStep st ')').depth = 0) ∧
     parse_example_blocks (String.mk (List.replicate 3 ')')) =
       [String.mk (List.replicate 3 ')')]) :=
  ⟨by decide, parse_example_blocks_saturating 3 (by decide)⟩

/-- Any record produced by one line of the signature scanner draws its
examples from the first three documented example blocks for its name. -/
theorem tryLine_examples (docs : List (String × RdDoc)) (exports : List String)
    (ii : Bool) (line : List Char) (rest : List (List Char)) (f : FunctionRecord)
    (h : tryLine docs exports ii line rest = some f) :
    f.examples.length ≤ 3 ∧
    (∀ d, lookupBT docs f.name = some d →
        f.examples = (d.examples.take 3).map (fun e => ⟨e, []⟩)) ∧
    (lookupBT docs f.name = none → f.examples = []) := by
  simp only [tryLine] at h
  split at h
  · cases h
  · obtain ⟨pat, hpat, hsome⟩ := List.exists_of_findSome?_eq_some h
    split at hsome
    · cases hsome
    · split at hsome
      · cases hsome
      · split at hsome
        · cases hsome
        · split at hsome
          · cases hsome
          · cases hsome
            cases hdoc : lookupBT docs
                (String.mk (trimChars ((trimChars line).take _))) with
            | none =>
              refine ⟨?_, ?_, ?_⟩ <;>
                simp_all
            | some d =>
              refine ⟨?_, ?_, ?_⟩ <;> simp_all [List.length_take]

/-- Membership in the scanner's output comes from some line's `tryLine`. -/
theorem mem_extractFnsGo (docs : List (String × RdDoc)) (exports : List String)
    (ii : Bool) :
    ∀ (lines : List (List Char)) (f : FunctionRecord),
      f ∈ extractFnsGo docs exports ii lines →
      ∃ line rest, tryLine docs exports ii line rest = some f := by
  intro lines
  induction lines with
  | nil => intro f hf; cases hf
  | cons l ls ih =>
    intro f hf
    simp only [extractFnsGo] at hf
    revert hf
    split
    · next g hg =>
      intro hf
      rcases List.mem_cons.mp hf with hf | hf
      · exact ⟨l, ls, hf ▸ hg⟩
      · exact ih f hf
    · exact fun hf => ih f hf

/-- C8: every function record carries at most three examples, namely the
first three blocks documented for its name (in order), and the documented
blocks of a unit are exactly what the segmenter produced from its examples
section. -/
theorem function_record_examples_capped :
    (∀ (content : String) (exports : List String) (docs : List (String × RdDoc))
        (ii : Bool) (f : FunctionRecord),
      f ∈ extract_functions_from_r content exports docs ii →
        f.examples.length ≤ 3 ∧
        (∀ d, lookupBT docs f.name = some d →
            f.examples = (d.examples.take 3).map (fun e => ⟨e, []⟩)) ∧
        (lookupBT docs f.name = none → f.examples = [])) ∧
    (∀ c : String, (parse_rd_content c).examples =
      match lookupBT (extract_rd_sections c) ("examples") with
      | some e => parse_example_blocks e
      | none => []) := by
  constructor
  · intro content exports docs ii f hf
    obtain ⟨line, rest, h⟩ :=
      mem_extractFnsGo docs exports ii (rustLinesList content.toList) f hf
    exact tryLine_examples docs exports ii line rest f h
  · intro c
    rfl

/-- C8 witness: a concrete unit with four documented example blocks yields a
record carrying exactly the first three. -/
theorem function_record_examples_capped_witness :
    cap3Record ∈ extract_functions_from_r "f <- function(x) 1" [] cap3Docs false ∧
    cap3Record.examples.length ≤ 3 := by
  constructor
  · decide
  · exact (function_record_examples_capped.1 "f <- function(x) 1" []
      cap3Docs false cap3Record (by decide)).1

theorem splitNl_append (xs ys : List Char) (h : '\n' ∉ xs) :
    splitNl (xs ++ '\n' :: ys) = xs :: splitNl ys := by
  induction xs with
  | nil => simp [splitNl]
  | cons c cs ih =>
    have hc : c ≠ '\n' := fun e => h (e ▸ List.mem_cons_self c cs)
    have hcs : '\n' ∉ cs := fun m => h (List.mem_cons_of_mem c m)
    simp only [List.cons_append, splitNl, if_neg hc, List.append_eq, ih hcs]

/-- A fixed point of `dropWhile` has a head not matching the test. -/
theorem dropWhile_fix_head (p : Char → Bool) (l : List Char)
    (h : l.dropWhile p = l) (c : Char) (hc : l.head? = some c) : p c = false := by
  cases l with
  | nil => cases hc
  | cons a t =>
    cases hc
    rw [List.dropWhile_cons] at h
    by_contra hp
    rw [Bool.not_eq_false] at hp
    rw [if_pos hp] at h
    have hlen := congrArg List.length h
    have hle := (List.dropWhile_suffix (l := t) p).length_le
    simp at hlen
    omega

/-- A fixed point of trimming is a fixed point of both directional drops. -/
theorem trim_fix_parts (l : List Char) (h : trimChars l = l) :
    l.dropWhile isWs = l ∧ l.reverse.dropWhile isWs = l.reverse := by
  have h0 : ((l.dropWhile isWs).reverse.dropWhile isWs).reverse = l := h
  have hlen : ((l.dropWhile isWs).reverse.dropWhile isWs).length = l.length := by
    have := congrArg List.length h0
    simpa using this
  have hle1 : ((l.dropWhile isWs).reverse.dropWhile isWs).length ≤
      (l.dropWhile isWs).length := by
    have := (List.dropWhile_suffix (l := (l.dropWhile isWs).reverse) isWs).length_le
    simpa using this
  have hle2 : (l.dropWhile isWs).length ≤ l.length :=
    (List.dropWhile_suffix isWs).length_le
  have hu : l.dropWhile isWs = l :=
    (List.dropWhile_suffix isWs).eq_of_length (by omega)
  refine ⟨hu, ?_⟩
  have h2 : (l.reverse.dropWhile isWs).reverse = l := by
    rw [hu] at h0
    exact h0
  have := congrArg List.reverse h2
  simpa using this

/-- The last character of a trim-fixed list is not whitespace. -/
theorem trim_fix_last_not_ws (l : List Char) (h : trimChars l = l) (c : Char)
    (hc : l.getLast? = some c) : isWs c = false := by
  obtain ⟨-, h2⟩ := trim_fix_parts l h
  apply dropWhile_fix_head isWs l.reverse h2 c
  rw [List.head?_reverse]
  exact hc

theorem rustLines_two_desc (A B : List Char)
    (hAn : '\n' ∉ A) (hBn : '\n' ∉ B)
    (hAl : ∀ c, A.getLast? = some c → isWs c = false)
    (hBl : ∀ c, B.getLast? = some c → isWs c = false) :
    rustLinesList (descOpenLine ++ '\n' :: (A ++ '\n' :: cbr :: '\n' ::
        (descOpenLine ++ '\n' :: (B ++ '\n' :: [cbr])))) =
      [descOpenLine, A, [cbr], descOpenLine, B, [cbr]] := by
  have hdn : '\n' ∉ descOpenLine := by decide
  have hsplit : splitNl (descOpenLine ++ '\n' :: (A ++ '\n' :: cbr :: '\n' ::
        (descOpenLine ++ '\n' :: (B ++ '\n' :: [cbr])))) =
      [descOpenLine, A, [cbr], descOpenLine, B, [cbr]] := by
    rw [splitNl_append _ _ hdn, splitNl_append _ _ hAn]
    rw [show (cbr : Char) :: '\n' :: (descOpenLine ++ '\n' :: (B ++ '\n' :: [cbr])) =
        [cbr] ++ '\n' :: (descOpenLine ++ '\n' :: (B ++ '\n' :: [cbr])) from rfl]
    rw [splitNl_append _ _ (by decide), splitNl_append _ _ hdn,
      splitNl_append _ _ hBn, splitNl_no_nl _ (by decide)]
  have hne : descOpenLine ++ '\n' :: (A ++ '\n' :: cbr :: '\n' ::
      (descOpenLine ++ '\n' :: (B ++ '\n' :: [cbr]))) ≠ [] := by
    intro hcontra
    have := congrArg List.length hcontra
    simp [descOpenLine] at this
  have hcons : ∀ (c : Char) (xs : List Char),
      (c :: xs).getLast? = xs.getLast?.or (some c) := by
    intro c xs
    rw [show c :: xs = [c] ++ xs from rfl, List.getLast?_append]
    rfl
  have hlast : (descOpenLine ++ '\n' :: (A ++ '\n' :: cbr :: '\n' ::
      (descOpenLine ++ '\n' :: (B ++ '\n' :: [cbr])))).getLast? = some cbr := by
    simp [descOpenLine, hcons, List.getLast?_append, Option.or]
  have hAcr : ¬ A.getLast? = some '\x0d' := by
    intro hr
    have := hAl _ hr
    exact absurd this (by decide)
  have hBcr : ¬ B.getLast? = some '\x0d' := by
    intro hr
    have := hBl _ hr
    exact absurd this (by decide)
  simp only [rustLinesList, if_neg hne, hsplit, hlast]
  rw [if_neg (by decide)]
  simp only [List.map_cons, List.map_nil, if_neg hAcr, if_neg hBcr]
  rw [if_neg (by decide), if_neg (by decide)]

/-- Opening a description section from the idle state. -/
theorem secStep_open_desc (cur : String) (content : List Char)
    (secs : List (String × String)) :
    secStep ⟨cur, content, 0, secs⟩ descOpenLine =
      ⟨"description", [], 1, secs⟩ := by
  have h1 : trimChars descOpenLine = descOpenLine := by decide
  have h2 : sectionNames.find? (fun nm => (secPfx nm).isPrefixOf descOpenLine) =
      some "description" := by decide
  have h3 : descOpenLine.drop (secPfx "description").length = [] := by decide
  simp [secStep, h1, h2, h3, countBracesL]

/-- Accumulating a body line inside an open section. -/
theorem secStep_body (cur : String) (secs : List (String × String))
    (A : List Char) (htr : trimChars A = A) (hbr : countBracesL A = 0) :
    secStep ⟨cur, [], 1, secs⟩ A = ⟨cur, A, 1, secs⟩ := by
  have hne : (1 : Int) = 0 → False := by omega
  simp [secStep, htr, hbr]

/-- Dropping the trailing closing brace after the final newline join. -/
theorem dropEnd_close (A : List Char) :
    dropEndWhile (· = cbr) (A ++ ['\n', cbr]) = A ++ ['\n'] := by
  unfold dropEndWhile
  rw [List.reverse_append]
  simp only [List.reverse_cons, List.reverse_nil, List.nil_append,
    List.cons_append, List.dropWhile_cons]
  rw [if_pos (by decide), if_neg (by decide)]
  simp

/-- Closing an open section with a lone closing-brace line. -/
theorem secStep_close (cur : String) (secs : List (String × String))
    (A : List Char) (hne : A ≠ []) :
    secStep ⟨cur, A, 1, secs⟩ [cbr] =
      ⟨"", [], 0, insertBT secs cur (String.mk (A ++ ['\n']))⟩ := by
  have h1 : trimChars [cbr] = [cbr] := by decide
  have h2 : countBracesL [cbr] = -1 := by decide
  simp only [secStep]
  rw [if_neg (by omega)]
  simp only [h1, h2, if_neg hne]
  rw [if_pos (by omega)]
  have h3 : A ++ '\n' :: [cbr] = A ++ ['\n', cbr] := rfl
  rw [h3, dropEnd_close]

/-- C3 amended: when a unit contains two complete top-level sections of the
same name, the extractor keeps exactly one entry for that name, and the kept
content is that of the LAST occurrence — `insert` overwrites the earlier
entry — the first being silently discarded. -/
theorem extract_rd_sections_last_duplicate_wins (A B : String)
    (hA : trimChars A.toList = A.toList ∧ countBracesL A.toList = 0 ∧
          A.toList ≠ [] ∧ '\n' ∉ A.toList)
    (hB : trimChars B.toList = B.toList ∧ countBracesL B.toList = 0 ∧
          B.toList ≠ [] ∧ '\n' ∉ B.toList) :
    extract_rd_sections ("\x5cdescription\x7b\n" ++ A ++
        "\n\x7d\n\x5cdescription\x7b\n" ++ B ++ "\n\x7d") =
      [("description", B ++ "\n")] ∧
    (extract_rd_sections ("\x5cdescription\x7b\n" ++ A ++
        "\n\x7d\n\x5cdescription\x7b\n" ++ B ++ "\n\x7d")).length = 1 := by
  obtain ⟨hAt, hAb, hAne, hAnl⟩ := hA
  obtain ⟨hBt, hBb, hBne, hBnl⟩ := hB
  have hlist : ("\x5cdescription\x7b\n" ++ A ++
      "\n\x7d\n\x5cdescription\x7b\n" ++ B ++ "\n\x7d").toList =
      descOpenLine ++ '\n' :: (A.toList ++ '\n' :: cbr :: '\n' ::
        (descOpenLine ++ '\n' :: (B.toList ++ '\n' :: [cbr]))) := by
    simp only [String.toList, String.data_append]
    simp [descOpenLine, cbr, String.toList, List.append_assoc]
  have hmain : extract_rd_sections ("\x5cdescription\x7b\n" ++ A ++
      "\n\x7d\n\x5cdescription\x7b\n" ++ B ++ "\n\x7d") =
      [("description", B ++ "\n")] := by
    unfold extract_rd_sections
    rw [hlist, rustLines_two_desc A.toList B.toList hAnl hBnl
      (trim_fix_last_not_ws A.toList hAt) (trim_fix_last_not_ws B.toList hBt)]
    rw [List.foldl_cons, secStep_open_desc, List.foldl_cons,
      secStep_body _ _ _ hAt hAb, List.foldl_cons, secStep_close _ _ _ hAne,
      List.foldl_cons, secStep_open_desc, List.foldl_cons,
      secStep_body _ _ _ hBt hBb, List.foldl_cons, secStep_close _ _ _ hBne,
      List.foldl_nil]
    have hmk : (⟨B.data ++ ['\n']⟩ : String) = B ++ "\n" := by
      cases B
      rfl
    simp [insertBT, String.mk, hmk]
  exact ⟨hmain, by rw [hmain]; rfl⟩

/-- C3 amended witness at concrete duplicate sections. -/
theorem extract_rd_sections_last_duplicate_wins_witness :
    extract_rd_sections ("\x5cdescription\x7b\n" ++ "First" ++
        "\n\x7d\n\x5cdescription\x7b\n" ++ "Second" ++ "\n\x7d") =
      [("description", "Second" ++ "\n")] ∧
    (extract_rd_sections ("\x5cdescription\x7b\n" ++ "First" ++
        "\n\x7d\n\x5cdescription\x7b\n" ++ "Second" ++ "\n\x7d")).length = 1 :=
  extract_rd_sections_last_duplicate_wins "First" "Second"
    ⟨by decide, by decide, by decide, by decide⟩
    ⟨by decide, by decide, by decide, by decide⟩

/-- A buffer ending in the item marker ends in an opening brace. -/
theorem itemPat_suffix_last (l : List Char) (h : itemPat.isSuffixOf l = true) :
    l.getLast? = some obr := by
  have hs : itemPat <:+ l := List.isSuffixOf_iff_suffix.mp h
  obtain ⟨t, rfl⟩ := hs
  rw [List.getLast?_append]
  rfl

/-- Pushing a non-brace character never triggers the item marker. -/
theorem argStep_scan (buf : List Char) (m : List (String × String)) (c : Char)
    (hc : c ≠ obr) :
    argStep ⟨ArgMode.scanning, buf, m⟩ c = ⟨ArgMode.scanning, buf ++ [c], m⟩ := by
  simp only [argStep]
  rw [if_neg]
  intro h
  have := itemPat_suffix_last _ h
  rw [List.getLast?_concat] at this
  exact hc (Option.some.inj this)

/-- Scanning over brace-free separator text only grows the buffer. -/
theorem argScan_fold (S : List Char) (hS : obr ∉ S) :
    ∀ (buf : List Char) (m : List (String × String)) (tail : List Char),
    List.foldl argStep ⟨ArgMode.scanning, buf, m⟩ (S ++ tail) =
    List.foldl argStep ⟨ArgMode.scanning, buf ++ S, m⟩ tail := by
  induction S with
  | nil => intro buf m tail; simp
  | cons c cs ih =>
    intro buf m tail
    have hc : c ≠ obr := fun e => hS (e ▸ List.mem_cons_self c cs)
    have hcs : obr ∉ cs := fun e => hS (List.mem_cons_of_mem c e)
    rw [List.cons_append, List.foldl_cons, argStep_scan buf m c hc, ih hcs]
    simp [List.append_assoc]

/-- Scanning the item marker resets the buffer and starts name collection. -/
theorem argTrigger_fold (buf : List Char) (m : List (String × String))
    (tail : List Char) :
    List.foldl argStep ⟨ArgMode.scanning, buf, m⟩ (itemPat ++ tail) =
    List.foldl argStep ⟨ArgMode.collectName 1 [], [], m⟩ tail := by
  have h5 : obr ∉ ([bsl, 'i', 't', 'e', 'm'] : List Char) := by decide
  have : itemPat ++ tail = [bsl, 'i', 't', 'e', 'm'] ++ obr :: tail := rfl
  rw [this, argScan_fold _ h5, List.foldl_cons]
  have htrig : argStep ⟨ArgMode.scanning, buf ++ [bsl, 'i', 't', 'e', 'm'], m⟩ obr
      = ⟨ArgMode.collectName 1 [], [], m⟩ := by
    simp only [argStep]
    rw [if_pos]
    rw [show (buf ++ [bsl, 'i', 't', 'e', 'm']) ++ [obr] = buf ++ itemPat by
      simp [itemPat, List.append_assoc]]
    exact List.isSuffixOf_iff_suffix.mpr (List.suffix_append buf itemPat)
  rw [htrig]

/-- Name collection consumes a brace-free name up to its closing brace. -/
theorem argName_fold (N : List Char) (hN : obr ∉ N ∧ cbr ∉ N) :
    ∀ (acc buf : List Char) (m : List (String × String)) (tail : List Char),
    List.foldl argStep ⟨ArgMode.collectName 1 acc, buf, m⟩ (N ++ cbr :: tail) =
    List.foldl argStep ⟨ArgMode.awaitOpen (acc ++ N), buf, m⟩ tail := by
  induction N with
  | nil =>
    intro acc buf m tail
    rw [List.nil_append, List.foldl_cons]
    have hstep : argStep ⟨ArgMode.collectName 1 acc, buf, m⟩ cbr =
        ⟨ArgMode.awaitOpen acc, buf, m⟩ := by
      simp [argStep, show (cbr = obr) = False by decide]
    rw [hstep]
    simp
  | cons c cs ih =>
    intro acc buf m tail
    have hc1 : c ≠ obr := fun e => hN.1 (e ▸ List.mem_cons_self c cs)
    have hc2 : c ≠ cbr := fun e => hN.2 (e ▸ List.mem_cons_self c cs)
    have hcs : obr ∉ cs ∧ cbr ∉ cs :=
      ⟨fun e => hN.1 (List.mem_cons_of_mem c e),
       fun e => hN.2 (List.mem_cons_of_mem c e)⟩
    rw [List.cons_append, List.foldl_cons]
    have hstep : argStep ⟨ArgMode.collectName 1 acc, buf, m⟩ c =
        ⟨ArgMode.collectName 1 (acc ++ [c]), buf, m⟩ := by
      simp [argStep, hc1, hc2]
    rw [hstep, ih hcs]
    simp [List.append_assoc]

/-- Description collection over balanced text accumulates it verbatim. -/
theorem argDesc_fold (D : List Char) :
    ∀ (r : Nat), chkBal r D = true →
    ∀ (k : Nat), 0 < k →
    ∀ (nm acc buf : List Char) (m : List (String × String)) (tail : List Char),
    List.foldl argStep ⟨ArgMode.inDesc nm acc (k + r), buf, m⟩ (D ++ tail) =
    List.foldl argStep ⟨ArgMode.inDesc nm (acc ++ D) k, buf ++ D, m⟩ tail := by
  induction D with
  | nil =>
    intro r hr k hk nm acc buf m tail
    have hr0 : r = 0 := by simpa [chkBal] using hr
    subst hr0
    simp
  | cons c cs ih =>
    intro r hr k hk nm acc buf m tail
    rw [List.cons_append, List.foldl_cons]
    by_cases hco : c = obr
    · subst hco
      have hr' : chkBal (r + 1) cs = true := by simpa [chkBal] using hr
      have hstep : argStep ⟨ArgMode.inDesc nm acc (k + r), buf, m⟩ obr =
          ⟨ArgMode.inDesc nm (acc ++ [obr]) (k + (r + 1)), buf ++ [obr], m⟩ := by
        simp [argStep, argDescStep]
        omega
      rw [hstep, ih (r + 1) hr' k hk nm (acc ++ [obr]) (buf ++ [obr]) m tail]
      simp [List.append_assoc]
    · by_cases hcc : c = cbr
      · subst hcc
        cases r with
        | zero => simp [chkBal, hco] at hr
        | succ r' =>
          have hr' : chkBal r' cs = true := by simpa [chkBal, hco] using hr
          have hstep : argStep ⟨ArgMode.inDesc nm acc (k + (r' + 1)), buf, m⟩ cbr =
              ⟨ArgMode.inDesc nm (acc ++ [cbr]) (k + r'), buf ++ [cbr], m⟩ := by
            simp only [argStep, argDescStep, if_true]
            rw [if_neg (show ¬ (k + (r' + 1) = 1) by omega), if_neg hco,
              show k + (r' + 1) - 1 = k + r' by omega]
          rw [hstep, ih r' hr' k hk nm (acc ++ [cbr]) (buf ++ [cbr]) m tail]
          simp [List.append_assoc]
      · have hr' : chkBal r cs = true := by simpa [chkBal, hco, hcc] using hr
        have hstep : argStep ⟨ArgMode.inDesc nm acc (k + r), buf, m⟩ c =
            ⟨ArgMode.inDesc nm (acc ++ [c]) (k + r), buf ++ [c], m⟩ := by
          simp [argStep, argDescStep, hco, hcc]
        rw [hstep, ih r hr' k hk nm (acc ++ [c]) (buf ++ [c]) m tail]
        simp [List.append_assoc]

/-- Processing one whole well-formed item inserts its pair and returns to
scanning with the line separator in the buffer. -/
theorem argItem_fold (n d : String)
    (hn1 : trimChars n.toList = n.toList) (hn2 : n.toList ≠ [])
    (hn3 : obr ∉ n.toList) (hn4 : cbr ∉ n.toList)
    (hd1 : chkBal 0 d.toList = true) (hd2 : trimChars d.toList = d.toList)
    (buf : List Char) (m : List (String × String)) (tail : List Char) :
    List.foldl argStep ⟨ArgMode.scanning, buf, m⟩
      ((itemPat ++ n.toList ++ cbr :: obr :: d.toList ++ [cbr, '\n']) ++ tail) =
    List.foldl argStep ⟨ArgMode.scanning, ['\n'], insertBT m n (sanitize d)⟩
      tail := by
  have hshape : (itemPat ++ n.toList ++ cbr :: obr :: d.toList ++ [cbr, '\n']) ++ tail
      = itemPat ++ (n.toList ++ cbr :: (obr :: (d.toList ++ cbr :: '\n' :: tail))) := by
    simp [List.append_assoc]
  rw [hshape, argTrigger_fold, argName_fold n.toList ⟨hn3, hn4⟩]
  rw [List.foldl_cons]
  have hopen : argStep ⟨ArgMode.awaitOpen ([] ++ n.toList), [], m⟩ obr =
      ⟨ArgMode.inDesc n.toList [] 1, [], m⟩ := by
    simp [argStep]
  rw [hopen]
  have hdesc := argDesc_fold d.toList 0 hd1 1 (by omega) n.toList [] [] m
    (cbr :: '\n' :: tail)
  simp only [Nat.add_zero] at hdesc
  rw [hdesc, List.foldl_cons]
  have hclose : argStep ⟨ArgMode.inDesc n.toList ([] ++ d.toList) 1,
      [] ++ d.toList, m⟩ cbr =
      ⟨ArgMode.scanning, [], insertBT m n (sanitize d)⟩ := by
    simp only [argStep, argDescStep, List.nil_append, if_true]
    rw [hn1, hd2, if_neg hn2, if_neg (show ¬ (cbr = obr) by decide)]
    rfl
  rw [hclose, List.foldl_cons]
  have hnl : argStep ⟨ArgMode.scanning, [], insertBT m n (sanitize d)⟩ '\n' =
      ⟨ArgMode.scanning, ['\n'], insertBT m n (sanitize d)⟩ :=
    argStep_scan [] _ '\n' (by decide)
  rw [hnl]

/-- Inserting a fresh key appends it at the end. -/
theorem insertBT_fresh {α : Type} (m : List (String × α)) (k : String) (v : α)
    (h : ∀ q ∈ m, q.1 ≠ k) : insertBT m k v = m ++ [(k, v)] := by
  induction m with
  | nil => rfl
  | cons q rest ih =>
    simp only [insertBT]
    rw [if_neg (h q (List.mem_cons_self q rest)),
      ih (fun q' hq' => h q' (List.mem_cons_of_mem q hq'))]
    rfl

/-- The item text of the head of `argsText`, as a character list. -/
theorem argsText_cons_toList (n d : String) (rest : List (String × String)) :
    (argsText ((n, d) :: rest)).toList =
      (itemPat ++ n.toList ++ cbr :: obr :: d.toList ++ [cbr, '\n']) ++
        (argsText rest).toList := by
  simp only [argsText, String.toList, String.data_append]
  simp [itemPat, cbr, obr, bsl, List.append_assoc]

/-- The argument scanner over the canonical item list, from any buffer. -/
theorem argsGo_items : ∀ (items : List (String × String)) (buf : List Char)
    (m : List (String × String)),
    (∀ p ∈ items, wfItem p) →
    (∀ p ∈ items, ∀ q ∈ m, q.1 ≠ p.1) →
    (items.map Prod.fst).Nodup →
    (List.foldl argStep ⟨ArgMode.scanning, buf, m⟩ (argsText items).toList).args =
      m ++ items.map (fun p => (p.1, sanitize p.2)) := by
  intro items
  induction items with
  | nil => intro buf m _ _ _; simp [argsText, String.toList]
  | cons p rest ih =>
    intro buf m hwf hfresh hnd
    obtain ⟨n, d⟩ := p
    obtain ⟨hn1, hn2, hn3, hn4, hd1, hd2⟩ := hwf (n, d) (List.mem_cons_self _ _)
    rw [argsText_cons_toList, argItem_fold n d hn1 hn2 hn3 hn4 hd1 hd2 buf m]
    have hfr : ∀ q ∈ m, q.1 ≠ n :=
      fun q hq => hfresh (n, d) (List.mem_cons_self _ _) q hq
    rw [insertBT_fresh m n (sanitize d) hfr]
    rw [List.map_cons, List.nodup_cons] at hnd
    rw [ih ['\n'] (m ++ [(n, sanitize d)])
      (fun q hq => hwf q (List.mem_cons_of_mem _ hq))
      ?fresh hnd.2]
    · simp
    case fresh =>
      intro q hq r hr
      rcases List.mem_append.mp hr with hr | hr
      · exact hfresh q (List.mem_cons_of_mem _ hq) r hr
      · rcases List.mem_singleton.mp hr with rfl
        intro he
        exact hnd.1 (by rw [he]; exact List.mem_map_of_mem Prod.fst hq)

/-- C5: on an arguments section consisting of N well-formed
`\item{NAME}{DESC}` entries with pairwise distinct names, the parser returns
exactly N entries, keyed by the literal names, each value being the
description with inline commands stripped and whitespace collapsed
(`sanitize`). -/
theorem parse_arguments_section_complete (items : List (String × String))
    (hwf : ∀ p ∈ items, wfItem p) (hnd : (items.map Prod.fst).Nodup) :
    parse_arguments_section (argsText items) =
      items.map (fun p => (p.1, sanitize p.2)) ∧
    (parse_arguments_section (argsText items)).length = items.length := by
  have h := argsGo_items items [] [] hwf (by simp) hnd
  have hmain : parse_arguments_section (argsText items) =
      items.map (fun p => (p.1, sanitize p.2)) := by
    unfold parse_arguments_section
    rw [show (argsText items).toList.foldl argStep ⟨ArgMode.scanning, [], []⟩ =
      List.foldl argStep ⟨ArgMode.scanning, [], []⟩ (argsText items).toList
      from rfl, h]
    simp
  exact ⟨hmain, by rw [hmain, List.length_map]⟩

/-- C5 witness at two concrete items. -/
theorem parse_arguments_section_complete_witness :
    parse_arguments_section (argsText [("x", "First arg."), ("y", "Second.")]) =
      [("x", sanitize "First arg."), ("y", sanitize "Second.")] ∧
    (parse_arguments_section
        (argsText [("x", "First arg."), ("y", "Second.")])).length = 2 :=
  parse_arguments_section_complete [("x", "First arg."), ("y", "Second.")]
    (by intro p hp
        rcases List.mem_cons.mp hp with rfl | hp
        · exact ⟨by decide, by decide, by decide, by decide, by decide, by decide⟩
        · rcases List.mem_singleton.mp hp with rfl
          exact ⟨by decide, by decide, by decide, by decide, by decide, by decide⟩)
    (by decide)

theorem extractBraceGo_len : ∀ (cs : List Char) (d : Nat),
    (extractBraceGo d cs).1.length + (extractBraceGo d cs).2.length ≤
      cs.length := by
  intro cs
  induction cs with
  | nil => intro d; simp [extractBraceGo]
  | cons c cs ih =>
    intro d
    simp only [extractBraceGo]
    split
    · split
      · simp
      · cases hE : extractBraceGo (d - 1) cs with
        | mk i r =>
          have h := ih (d - 1)
          rw [hE] at h
          simp only [hE]
          simp at h ⊢
          omega
    · split
      · cases hE : extractBraceGo (d + 1) cs with
        | mk i r =>
          have h := ih (d + 1)
          rw [hE] at h
          simp only [hE]
          simp at h ⊢
          omega
      · cases hE : extractBraceGo d cs with
        | mk i r =>
          have h := ih d
          rw [hE] at h
          simp only [hE]
          simp at h ⊢
          omega

theorem exLenB1 (d : Nat) (l : List Char) (b : Nat) (h : l.length ≤ b) :
    (extractBraceGo d l).1.length ≤ b := by
  have := extractBraceGo_len l d
  omega

theorem exLenB2 (d : Nat) (l : List Char) (b : Nat) (h : l.length ≤ b) :
    (extractBraceGo d l).2.length ≤ b := by
  have := extractBraceGo_len l d
  omega

theorem dwLenB (p : Char → Bool) (l : List Char) (b : Nat) (h : l.length ≤ b) :
    (l.dropWhile p).length ≤ b :=
  le_trans (List.dropWhile_suffix p).length_le h

theorem twLenB (p : Char → Bool) (l : List Char) (b : Nat) (h : l.length ≤ b) :
    (l.takeWhile p).length ≤ b :=
  le_trans (List.takeWhile_prefix p).length_le h

theorem tlLenB (l : List Char) (b : Nat) (h : l.length ≤ b) :
    l.tail.length ≤ b := by
  rw [List.length_tail]
  omega

theorem dropLenB (n : Nat) (l : List Char) (b : Nat) (h : l.length ≤ b) :
    (l.drop n).length ≤ b := by
  rw [List.length_drop]
  omega

theorem keepArm_congr (r1 r2 : List Char → List Char) (rest : List Char)
    (h : ∀ X : List Char, X.length ≤ rest.length → r1 X = r2 X) :
    keepArm r1 rest = keepArm r2 rest := by
  simp only [keepArm]
  split
  · congr 1
    exact h _ (exLenB2 _ _ _ (tlLenB _ _ (dwLenB _ _ _ (Nat.le_refl _))))
  · exact h _ (dwLenB _ _ _ (Nat.le_refl _))

theorem hrefArm_congr (r1 r2 : List Char → List Char) (rest : List Char)
    (h : ∀ X : List Char, X.length ≤ rest.length → r1 X = r2 X) :
    hrefArm r1 rest = hrefArm r2 rest := by
  simp only [hrefArm]
  split
  · split
    · congr 1
      · exact h _ (exLenB1 _ _ _ (tlLenB _ _ (dwLenB _ _ _
          (exLenB2 _ _ _ (tlLenB _ _ (dwLenB _ _ _ (Nat.le_refl _)))))))
      · exact h _ (exLenB2 _ _ _ (tlLenB _ _ (dwLenB _ _ _
          (exLenB2 _ _ _ (tlLenB _ _ (dwLenB _ _ _ (Nat.le_refl _)))))))
    · congr 1
      exact h _ (dwLenB _ _ _ (exLenB2 _ _ _ (tlLenB _ _
        (dwLenB _ _ _ (Nat.le_refl _)))))
  · exact h _ (dwLenB _ _ _ (Nat.le_refl _))

theorem dropArm_congr (r1 r2 : List Char → List Char) (rest : List Char)
    (h : ∀ X : List Char, X.length ≤ rest.length → r1 X = r2 X) :
    dropArm r1 rest = dropArm r2 rest := by
  simp only [dropArm]
  split
  · exact h _ (exLenB2 _ _ _ (tlLenB _ _ (dwLenB _ _ _ (Nat.le_refl _))))
  · exact h _ (dwLenB _ _ _ (Nat.le_refl _))

theorem itemArm_congr (r1 r2 : List Char → List Char) (rest : List Char)
    (h : ∀ X : List Char, X.length ≤ rest.length → r1 X = r2 X) :
    itemArm r1 rest = itemArm r2 rest := by
  simp only [itemArm]
  split
  · split
    · congr 1
      · exact h _ (exLenB1 _ _ _ (tlLenB _ _ (dwLenB _ _ _
          (exLenB2 _ _ _ (tlLenB _ _ (dwLenB _ _ _ (Nat.le_refl _)))))))
      · congr 1
        exact h _ (exLenB2 _ _ _ (tlLenB _ _ (dwLenB _ _ _
          (exLenB2 _ _ _ (tlLenB _ _ (dwLenB _ _ _ (Nat.le_refl _)))))))
    · exact h _ (dwLenB _ _ _ (exLenB2 _ _ _ (tlLenB _ _
        (dwLenB _ _ _ (Nat.le_refl _)))))
  · split
    · congr 1
      · exact h _ (exLenB1 _ _ _ (tlLenB _ _ (dwLenB _ _ _
          (dwLenB _ _ _ (Nat.le_refl _)))))
      · congr 1
        exact h _ (exLenB2 _ _ _ (tlLenB _ _ (dwLenB _ _ _
          (dwLenB _ _ _ (Nat.le_refl _)))))
    · exact h _ (dwLenB _ _ _ (dwLenB _ _ _ (Nat.le_refl _)))

theorem recurseArm_congr (r1 r2 : List Char → List Char) (rest : List Char)
    (h : ∀ X : List Char, X.length ≤ rest.length → r1 X = r2 X) :
    recurseArm r1 rest = recurseArm r2 rest := by
  simp only [recurseArm]
  split
  · congr 1
    · exact h _ (exLenB1 _ _ _ (tlLenB _ _ (dwLenB _ _ _ (Nat.le_refl _))))
    · exact h _ (exLenB2 _ _ _ (tlLenB _ _ (dwLenB _ _ _ (Nat.le_refl _))))
  · exact h _ (dwLenB _ _ _ (Nat.le_refl _))

theorem verbArm_congr (r1 r2 : List Char → List Char) (rest : List Char)
    (h : ∀ X : List Char, X.length ≤ rest.length → r1 X = r2 X) :
    verbArm r1 rest = verbArm r2 rest := by
  have hdw : (rest.dropWhile isWs).length ≤ rest.length :=
    dwLenB _ _ _ (Nat.le_refl _)
  simp only [verbArm]
  split
  · rfl
  · next d r2x heq =>
    have hr2x : r2x.length ≤ rest.length := by
      have := congrArg List.length heq
      simp at this
      omega
    split
    · congr 1
      exact h _ (exLenB2 _ _ _ hr2x)
    · congr 1
      exact h _ (dropLenB _ _ _ (dwLenB _ _ _ hr2x))

/-- Congruence for the command dispatch: it only applies the recursive call
to pieces no longer than `rest`. -/
theorem stripCmd_congr (r1 r2 : List Char → List Char) (cmd : String)
    (rest : List Char)
    (h : ∀ X : List Char, X.length ≤ rest.length → r1 X = r2 X) :
    stripCmd r1 cmd rest = stripCmd r2 cmd rest := by
  simp only [stripCmd]
  repeat' split
  all_goals first
    | exact keepArm_congr r1 r2 rest h
    | exact hrefArm_congr r1 r2 rest h
    | exact dropArm_congr r1 r2 rest h
    | exact itemArm_congr r1 r2 rest h
    | exact recurseArm_congr r1 r2 rest h
    | exact verbArm_congr r1 r2 rest h
    | (congr 1; first
        | rfl
        | exact h _ (Nat.le_refl _)
        | (congr 1; first
            | rfl
            | exact h _ (Nat.le_refl _)
            | (congr 1; first
                | rfl
                | exact h _ (Nat.le_refl _))))

/-- The fuelled stripper is independent of the fuel, as long as the fuel is
at least the input length (each step consumes at least one character, and
nested recursions act on disjoint pieces of the remainder). -/
theorem stripGo_irrel : ∀ (N : Nat) (cs : List Char) (f g : Nat),
    cs.length ≤ N → cs.length ≤ f → cs.length ≤ g →
    stripGo f cs = stripGo g cs := by
  intro N
  induction N with
  | zero =>
    intro cs f g hN _ _
    have hnil : cs = [] := List.length_eq_zero.mp (Nat.le_zero.mp hN)
    subst hnil
    cases f <;> cases g <;> rfl
  | succ N ih =>
    intro cs f g hN hf hg
    cases cs with
    | nil => cases f <;> cases g <;> rfl
    | cons c cs' =>
      cases f with
      | zero => simp at hf
      | succ f' =>
        cases g with
        | zero => simp at hg
        | succ g' =>
          have hN' : cs'.length ≤ N := by simp at hN; omega
          have hf' : cs'.length ≤ f' := by simp at hf; omega
          have hg' : cs'.length ≤ g' := by simp at hg; omega
          have ihx : ∀ X : List Char, X.length ≤ cs'.length →
              stripGo f' X = stripGo g' X :=
            fun X hX =>
              ih X f' g' (le_trans hX hN') (le_trans hX hf') (le_trans hX hg')
          simp only [stripGo]
          split
          · apply stripCmd_congr
            intro X hX
            exact ihx X (le_trans hX (dwLenB _ _ _ (Nat.le_refl _)))
          · split
            · exact ihx cs' (Nat.le_refl _)
            · rw [ihx cs' (Nat.le_refl _)]

/-- Splitting a scan at a boundary: a prefix all matching the test followed
by a non-matching head. -/
theorem scanSplit (p : Char → Bool) (xs ys : List Char)
    (hxs : ∀ c ∈ xs, p c = true)
    (hys : ∀ c, ys.head? = some c → p c = false) :
    (xs ++ ys).takeWhile p = xs ∧ (xs ++ ys).dropWhile p = ys := by
  induction xs with
  | nil =>
    refine ⟨?_, ?_⟩ <;>
      (cases ys with
       | nil => rfl
       | cons y t => simp [List.takeWhile_cons, List.dropWhile_cons, hys y rfl])
  | cons x xs ih =>
    have hx := hxs x (List.mem_cons_self x xs)
    have h2 := ih (fun c hc => hxs c (List.mem_cons_of_mem x hc))
    simp [List.takeWhile_cons, List.dropWhile_cons, hx, h2.1, h2.2]

/-- Brace extraction on balanced content consumes exactly the content and
its closing brace. -/
theorem extractBraceGo_bal (g : List Char) :
    ∀ (r : Nat), chkBal r g = true → ∀ (tail : List Char),
    extractBraceGo (r + 1) (g ++ cbr :: tail) = (g, tail) := by
  induction g with
  | nil =>
    intro r hr tail
    have hr0 : r = 0 := by simpa [chkBal] using hr
    subst hr0
    simp [extractBraceGo]
  | cons c cs ih =>
    intro r hr tail
    by_cases hco : c = obr
    · subst hco
      have hr' : chkBal (r + 1) cs = true := by simpa [chkBal] using hr
      rw [List.cons_append]
      simp only [extractBraceGo, if_true]
      rw [if_neg (show ¬ (obr = cbr) by decide)]
      rw [ih (r + 1) hr' tail]
    · by_cases hcc : c = cbr
      · subst hcc
        cases r with
        | zero => simp [chkBal, hco] at hr
        | succ r' =>
          have hr' : chkBal r' cs = true := by simpa [chkBal, hco] using hr
          rw [List.cons_append]
          simp only [extractBraceGo, if_true]
          rw [if_neg (show ¬ (r' + 1 + 1 = 1) by omega),
            show r' + 1 + 1 - 1 = r' + 1 by omega, ih r' hr' tail]
      · have hr' : chkBal r cs = true := by simpa [chkBal, hco, hcc] using hr
        rw [List.cons_append]
        simp only [extractBraceGo]
        rw [if_neg hcc, if_neg hco, ih r hr' tail]

/-- An unrecognized command name falls through to the recurse-content arm. -/
theorem stripCmd_unknown (rec : List Char → List Char) (cmd : String)
    (rest : List Char) (h : cmd ∉ recognizedCmds) :
    stripCmd rec cmd rest = recurseArm rec rest := by
  simp only [recognizedCmds, List.mem_append, not_or] at h
  obtain ⟨⟨⟨h1, h2⟩, h3⟩, h4⟩ := h
  simp only [List.mem_cons, not_or] at h2 h4
  simp [stripCmd, List.contains, listCmds, h1, h2, h3, h4]

/-- One step of the fuelled stripper on a backslash. -/
theorem stripGo_bsl (f : Nat) (t : List Char) :
    stripGo (f + 1) (bsl :: t) =
      stripCmd (fun x => stripGo f x) (String.mk (t.takeWhile isCmdChar))
        (t.dropWhile isCmdChar) := by
  simp [stripGo]

/-- `strip_rd_markup` on a backslash-headed string, in dispatch form. -/
theorem strip_mk_bsl (t : List Char) :
    strip_rd_markup (String.mk (bsl :: t)) =
      String.mk (stripCmd (fun x => stripGo t.length x)
        (String.mk (t.takeWhile isCmdChar)) (t.dropWhile isCmdChar)) := by
  unfold strip_rd_markup
  have h1 : (String.mk (bsl :: t)).toList = bsl :: t := rfl
  rw [h1, List.length_cons, stripGo_bsl]

/-- C4 amended: an unknown command followed (possibly after whitespace) by a
brace group has the group recursively stripped and emitted in place, and the
scan continues after the group; an unknown command not followed by a brace
group is dropped entirely — its name is not emitted as literal text (contrary
to the claim), and the whitespace after the name is consumed. -/
theorem strip_rd_markup_unknown_cmd (cmd ws g rest : List Char)
    (hcmd : ∀ c ∈ cmd, isCmdChar c = true) ( _hne : cmd ≠ [])
    (hrec : String.mk cmd ∉ recognizedCmds)
    (hws : ∀ c ∈ ws, isWs c = true ∧ isCmdChar c = false)
    (hg : chkBal 0 g = true)
    (hstop : ∀ c ∈ rest.take 1, isWs c = false ∧ c ≠ obr ∧
        (ws = [] → isCmdChar c = false)) :
    strip_rd_markup
        (String.mk (bsl :: (cmd ++ (ws ++ (obr :: (g ++ (cbr :: rest))))))) =
      strip_rd_markup (String.mk g) ++ strip_rd_markup (String.mk rest) ∧
    strip_rd_markup (String.mk (bsl :: (cmd ++ (ws ++ rest)))) =
      strip_rd_markup (String.mk rest) := by
  constructor
  · -- brace-group case
    have hsplit1 := scanSplit isCmdChar cmd (ws ++ (obr :: (g ++ (cbr :: rest))))
      hcmd ?stop1
    case stop1 =>
      intro c hc
      cases ws with
      | nil =>
        cases hc
        decide
      | cons w ws' =>
        cases hc
        exact (hws _ (List.mem_cons_self _ _)).2
    have hsplit2 := scanSplit isWs ws (obr :: (g ++ (cbr :: rest)))
      (fun c hc => (hws c hc).1) ?stop2
    case stop2 =>
      intro c hc
      cases hc
      decide
    rw [strip_mk_bsl, hsplit1.1, hsplit1.2]
    rw [stripCmd_unknown _ _ _ hrec]
    simp only [recurseArm]
    rw [hsplit2.2]
    rw [if_pos (show (obr :: (g ++ (cbr :: rest))).head? = some obr from rfl)]
    simp only [List.tail_cons]
    rw [show extractBraceGo 1 (g ++ cbr :: rest) = (g, rest) from
      extractBraceGo_bal g 0 hg rest]
    have hlg : g.length ≤ (cmd ++ (ws ++ (obr :: (g ++ (cbr :: rest))))).length := by
      simp [List.length_append]
      omega
    have hlr : rest.length ≤
        (cmd ++ (ws ++ (obr :: (g ++ (cbr :: rest))))).length := by
      simp [List.length_append]
      omega
    have e1 := stripGo_irrel _ g _ g.length hlg hlg (Nat.le_refl _)
    have e2 := stripGo_irrel _ rest _ rest.length hlr hlr (Nat.le_refl _)
    rw [e1, e2]
    rfl
  · -- no brace group: the command is dropped
    have hsplit1 := scanSplit isCmdChar cmd (ws ++ rest) hcmd ?stop1b
    case stop1b =>
      intro c hc
      cases ws with
      | nil =>
        cases rest with
        | nil => cases hc
        | cons r0 rs =>
          cases hc
          exact (hstop _ (by simp [List.take])).2.2 rfl
      | cons w ws' =>
        cases hc
        exact (hws _ (List.mem_cons_self _ _)).2
    have hsplit2 := scanSplit isWs ws rest (fun c hc => (hws c hc).1) ?stop2b
    case stop2b =>
      intro c hc
      cases rest with
      | nil => cases hc
      | cons r0 rs =>
        cases hc
        exact (hstop _ (by simp [List.take])).1
    rw [strip_mk_bsl, hsplit1.1, hsplit1.2]
    rw [stripCmd_unknown _ _ _ hrec]
    simp only [recurseArm]
    rw [hsplit2.2]
    have hhd : ¬ (rest.head? = some obr) := by
      cases rest with
      | nil => simp
      | cons r0 rs =>
        simp only [List.head?_cons, Option.some.injEq]
        exact (hstop _ (by simp [List.take])).2.1
    rw [if_neg hhd]
    have hlr : rest.length ≤ (cmd ++ (ws ++ rest)).length := by
      simp [List.length_append]
      omega
    have e2 := stripGo_irrel _ rest _ rest.length hlr hlr (Nat.le_refl _)
    rw [e2]
    rfl

/-- C4 counterexample: the unknown command `\foo` without a brace group is
dropped, and the whitespace after it is consumed: the output is `bar`, not
`foo bar` as the claim's pass-through-as-literal-text behavior requires. -/
theorem strip_rd_markup_drops_unknown_name :
    strip_rd_markup "\x5cfoo bar" = "bar" ∧ ("bar" : String) ≠ "foo bar" := by
  constructor
  · rfl
  · decide

/-- C4 amended witness at a concrete unknown command. -/
theorem strip_rd_markup_unknown_cmd_witness :
    strip_rd_markup (String.mk (bsl :: ("qux".toList ++ (" ".toList ++
        (obr :: ("a b".toList ++ (cbr :: "tail".toList))))))) =
      strip_rd_markup (String.mk ("a b".toList)) ++
        strip_rd_markup (String.mk ("tail".toList)) ∧
    strip_rd_markup (String.mk (bsl :: ("qux".toList ++
        (" ".toList ++ "tail".toList)))) =
      strip_rd_markup (String.mk ("tail".toList)) :=
  strip_rd_markup_unknown_cmd ("qux".toList) (" ".toList) ("a b".toList)
    ("tail".toList) (by decide) (by decide) (by decide) (by decide)
    (by decide) (by decide)

theorem noRecogB_suffix : ∀ (a b : List Char),
    noRecogB (a ++ b) = true → noRecogB b = true := by
  intro a
  induction a with
  | nil => intro b h; exact h
  | cons c cs ih =>
    intro b h
    rw [List.cons_append] at h
    simp only [noRecogB] at h
    split at h
    · rw [Bool.and_eq_true] at h
      exact ih b h.2
    · exact ih b h

theorem noRecogB_isSuffix (a l : List Char) (hs : a <:+ l)
    (h : noRecogB l = true) : noRecogB a = true := by
  obtain ⟨t, rfl⟩ := hs
  exact noRecogB_suffix t a h

theorem takeWhile_append_barrier (p : Char → Bool) (a : List Char) (c : Char)
    (b : List Char) (hc : p c = false) :
    (a ++ c :: b).takeWhile p = a.takeWhile p := by
  induction a with
  | nil => simp [List.takeWhile_cons, hc]
  | cons x xs ih =>
    rw [List.cons_append, List.takeWhile_cons, List.takeWhile_cons]
    cases hx : p x
    · rfl
    · rw [ih]

theorem noRecogB_barrier : ∀ (a : List Char) (c : Char) (b : List Char),
    noRecogB (a ++ c :: b) = true → isCmdChar c = false →
    noRecogB a = true := by
  intro a
  induction a with
  | nil => intro c b _ _; rfl
  | cons x xs ih =>
    intro c b h hc
    rw [List.cons_append] at h
    simp only [noRecogB] at h ⊢
    by_cases hx : x = bsl
    · rw [if_pos hx] at h ⊢
      rw [Bool.and_eq_true] at h ⊢
      have h1 := h.1
      rw [takeWhile_append_barrier isCmdChar xs c b hc] at h1
      exact ⟨h1, ih c b h.2 hc⟩
    · rw [if_neg hx] at h ⊢
      exact ih c b h hc

theorem extractBraceGo_decomp : ∀ (cs : List Char) (d : Nat),
    (extractBraceGo d cs).1 ++ cbr :: (extractBraceGo d cs).2 = cs ∨
    ((extractBraceGo d cs).1 = cs ∧ (extractBraceGo d cs).2 = []) := by
  intro cs
  induction cs with
  | nil => intro d; right; exact ⟨rfl, rfl⟩
  | cons c cs ih =>
    intro d
    simp only [extractBraceGo]
    split
    · next hcc =>
      split
      · left
        rw [hcc]
        rfl
      · cases hE : extractBraceGo (d - 1) cs with
        | mk i r =>
          have h := ih (d - 1)
          rw [hE] at h
          simp only [hE]
          rcases h with h | h
          · left
            simp only at h ⊢
            rw [List.cons_append, h]
          · right
            simp only at h ⊢
            exact ⟨by rw [h.1], h.2⟩
    · split
      · cases hE : extractBraceGo (d + 1) cs with
        | mk i r =>
          have h := ih (d + 1)
          rw [hE] at h
          simp only [hE]
          rcases h with h | h
          · left
            simp only at h ⊢
            rw [List.cons_append, h]
          · right
            simp only at h ⊢
            exact ⟨by rw [h.1], h.2⟩
      · cases hE : extractBraceGo d cs with
        | mk i r =>
          have h := ih d
          rw [hE] at h
          simp only [hE]
          rcases h with h | h
          · left
            simp only at h ⊢
            rw [List.cons_append, h]
          · right
            simp only at h ⊢
            exact ⟨by rw [h.1], h.2⟩

theorem extractBraceGo_suffix (cs : List Char) (d : Nat) :
    (extractBraceGo d cs).2 <:+ cs := by
  rcases extractBraceGo_decomp cs d with h | h
  · exact ⟨(extractBraceGo d cs).1 ++ [cbr], by simpa [List.append_assoc] using h⟩
  · rw [h.2]
    exact ⟨cs, by simp⟩

theorem recog_not_mem (x : String) (h : recognizedCmds.contains x = false) :
    x ∉ recognizedCmds := by
  intro hm
  simp only [List.contains] at h
  rw [List.elem_iff.mpr hm] at h
  cases h

theorem noRecogB_extract (cs : List Char) (d : Nat) (h : noRecogB cs = true) :
    noRecogB (extractBraceGo d cs).1 = true ∧
    noRecogB (extractBraceGo d cs).2 = true := by
  constructor
  · rcases extractBraceGo_decomp cs d with hd | hd
    · apply noRecogB_barrier (extractBraceGo d cs).1 cbr (extractBraceGo d cs).2
      · rw [hd]
        exact h
      · decide
    · rw [hd.1]
      exact h
  · exact noRecogB_isSuffix _ cs (extractBraceGo_suffix cs d) h

theorem noRecogB_bsl (cs : List Char) (h : noRecogB (bsl :: cs) = true) :
    String.mk (cs.takeWhile isCmdChar) ∉ recognizedCmds ∧
    noRecogB cs = true := by
  simp only [noRecogB] at h
  rw [if_pos trivial, Bool.and_eq_true, Bool.not_eq_true'] at h
  exact ⟨recog_not_mem _ h.1, h.2⟩

theorem stripGo_noSpec : ∀ (N : Nat) (cs : List Char) (f : Nat),
    cs.length ≤ N → cs.length ≤ f → noRecogB cs = true →
    noSpec (stripGo f cs) := by
  intro N
  induction N with
  | zero =>
    intro cs f hN _ _
    have hnil : cs = [] := List.length_eq_zero.mp (Nat.le_zero.mp hN)
    subst hnil
    cases f with
    | zero => intro c hc; cases hc
    | succ f => intro c hc; cases hc
  | succ N ih =>
    intro cs f hN hf hno
    cases cs with
    | nil =>
      cases f with
      | zero => intro c hc; cases hc
      | succ f => intro c hc; cases hc
    | cons c0 cs' =>
      cases f with
      | zero => simp at hf
      | succ f' =>
        have hN' : cs'.length ≤ N := by simp at hN; omega
        have hf' : cs'.length ≤ f' := by simp at hf; omega
        by_cases hb : c0 = bsl
        · subst hb
          rw [stripGo_bsl]
          obtain ⟨hcmd, hno'⟩ := noRecogB_bsl cs' hno
          rw [stripCmd_unknown _ _ _ hcmd]
          simp only [recurseArm]
          have hr1suf : ((cs'.dropWhile isCmdChar).dropWhile isWs) <:+ cs' :=
            (List.dropWhile_suffix isWs).trans (List.dropWhile_suffix isCmdChar)
          have hr1len : ((cs'.dropWhile isCmdChar).dropWhile isWs).length ≤
              cs'.length := hr1suf.length_le
          have hr1no :
              noRecogB ((cs'.dropWhile isCmdChar).dropWhile isWs) = true :=
            noRecogB_isSuffix _ cs' hr1suf hno'
          split
          · next hhead =>
            cases hcase : (cs'.dropWhile isCmdChar).dropWhile isWs with
            | nil =>
              rw [hcase] at hhead
              cases hhead
            | cons a t =>
              rw [hcase] at hhead hr1len hr1no
              simp only [List.head?_cons, Option.some.injEq] at hhead
              simp only [List.tail_cons]
              have htno : noRecogB t = true := by
                simp only [noRecogB] at hr1no
                rw [if_neg (by rw [hhead]; decide)] at hr1no
                exact hr1no
              have htlen : t.length ≤ cs'.length := by
                simp at hr1len
                omega
              have he := noRecogB_extract t 1 htno
              have hel := extractBraceGo_len t 1
              have hel1 : (extractBraceGo 1 t).1.length ≤ t.length := by omega
              have hel2 : (extractBraceGo 1 t).2.length ≤ t.length := by omega
              intro c hc
              rcases List.mem_append.mp hc with hc | hc
              · exact ih (extractBraceGo 1 t).1 f'
                  (le_trans hel1 (le_trans htlen hN'))
                  (le_trans hel1 (le_trans htlen hf')) he.1 c hc
              · exact ih (extractBraceGo 1 t).2 f'
                  (le_trans hel2 (le_trans htlen hN'))
                  (le_trans hel2 (le_trans htlen hf')) he.2 c hc
          · exact ih _ f' (le_trans hr1len hN') (le_trans hr1len hf') hr1no
        · have hcons : noRecogB cs' = true := by
            simp only [noRecogB] at hno
            rw [if_neg hb] at hno
            exact hno
          by_cases hbr : c0 = obr ∨ c0 = cbr
          · rw [show stripGo (f' + 1) (c0 :: cs') = stripGo f' cs' from by
              simp only [stripGo]
              rw [if_neg hb, if_pos (by simpa using hbr)]]
            exact ih cs' f' hN' hf' hcons
          · push_neg at hbr
            rw [show stripGo (f' + 1) (c0 :: cs') = c0 :: stripGo f' cs' from by
              simp only [stripGo]
              rw [if_neg hb, if_neg (by simpa using hbr)]]
            intro c hc
            rcases List.mem_cons.mp hc with rfl | hc
            · exact ⟨hb, hbr.1, hbr.2⟩
            · exact ih cs' f' hN' hf' hcons c hc

theorem stripGo_plain : ∀ (t : List Char) (f : Nat), t.length ≤ f →
    noSpec t → stripGo f t = t := by
  intro t
  induction t with
  | nil => intro f _ _; cases f <;> rfl
  | cons c cs ih =>
    intro f hf hsp
    cases f with
    | zero => simp at hf
    | succ f' =>
      obtain ⟨h1, h2, h3⟩ := hsp c (List.mem_cons_self c cs)
      simp only [stripGo]
      rw [if_neg h1, if_neg (by simp [h2, h3])]
      rw [ih f' (by simp at hf; omega)
        (fun x hx => hsp x (List.mem_cons_of_mem c hx))]

theorem splitWsGo_words : ∀ (cs acc : List Char),
    (∀ c ∈ acc, isWs c = false) →
    ∀ w ∈ splitWsGo acc cs, w ≠ [] ∧ ∀ c ∈ w, isWs c = false := by
  intro cs
  induction cs with
  | nil =>
    intro acc hacc w hw
    simp only [splitWsGo] at hw
    split at hw
    · cases hw
    · next hne =>
      rw [List.mem_singleton] at hw
      subst hw
      refine ⟨by simpa using hne, ?_⟩
      intro c hc
      exact hacc c (List.mem_reverse.mp hc)
  | cons c0 cs ih =>
    intro acc hacc w hw
    simp only [splitWsGo] at hw
    split at hw
    · split at hw
      · exact ih [] (by intro c hc; cases hc) w hw
      · next hne =>
        rcases List.mem_cons.mp hw with rfl | hw
        · refine ⟨by simpa using hne, ?_⟩
          intro c hc
          exact hacc c (List.mem_reverse.mp hc)
        · exact ih [] (by intro c hc; cases hc) w hw
    · next hc0 =>
      refine ih (c0 :: acc) ?_ w hw
      intro x hx
      rcases List.mem_cons.mp hx with rfl | hx
      · exact Bool.of_not_eq_true hc0
      · exact hacc x hx

theorem splitWsGo_word : ∀ (w : List Char), (∀ c ∈ w, isWs c = false) →
    ∀ (acc tail : List Char),
    splitWsGo acc (w ++ tail) = splitWsGo (w.reverse ++ acc) tail := by
  intro w
  induction w with
  | nil => intro _ acc tail; simp
  | cons c cs ih =>
    intro hw acc tail
    rw [List.cons_append]
    simp only [splitWsGo]
    rw [if_neg (by simp [hw c (List.mem_cons_self c cs)])]
    rw [ih (fun x hx => hw x (List.mem_cons_of_mem c hx)) (c :: acc) tail]
    congr 1
    simp

theorem splitWsGo_nil_acc (acc : List Char) (h : acc ≠ []) :
    splitWsGo acc [] = [acc.reverse] := by
  simp only [splitWsGo]
  rw [if_neg h]

theorem splitWs_joinWords : ∀ (ws : List (List Char)),
    (∀ w ∈ ws, w ≠ [] ∧ ∀ c ∈ w, isWs c = false) →
    splitWsGo [] (joinWords ws) = ws := by
  intro ws
  induction ws with
  | nil => intro _; rfl
  | cons w ws ih =>
    intro h
    have hw := h w (List.mem_cons_self w ws)
    cases ws with
    | nil =>
      have hword := splitWsGo_word w hw.2 [] []
      rw [List.append_nil] at hword
      rw [show joinWords [w] = w from rfl, hword, List.append_nil,
        splitWsGo_nil_acc w.reverse (by simpa using hw.1),
        List.reverse_reverse]
    | cons w2 ws2 =>
      rw [show joinWords (w :: w2 :: ws2) = w ++ ' ' :: joinWords (w2 :: ws2)
        from rfl]
      rw [splitWsGo_word w hw.2 [] (' ' :: joinWords (w2 :: ws2))]
      simp only [splitWsGo]
      rw [if_pos (show isWs ' ' = true from rfl),
        if_neg (show ¬ (w.reverse ++ ([] : List Char) = []) by
          simpa using hw.1),
        List.append_nil, List.reverse_reverse,
        ih (fun x hx => h x (List.mem_cons_of_mem w hx))]

theorem splitWsGo_chars : ∀ (cs acc w : List Char),
    w ∈ splitWsGo acc cs → ∀ c ∈ w, c ∈ acc ∨ c ∈ cs := by
  intro cs
  induction cs with
  | nil =>
    intro acc w hw c hc
    simp only [splitWsGo] at hw
    split at hw
    · cases hw
    · rw [List.mem_singleton] at hw
      subst hw
      exact Or.inl (List.mem_reverse.mp hc)
  | cons c0 cs ih =>
    intro acc w hw c hc
    simp only [splitWsGo] at hw
    split at hw
    · split at hw
      · rcases ih [] w hw c hc with h | h
        · cases h
        · exact Or.inr (List.mem_cons_of_mem c0 h)
      · rcases List.mem_cons.mp hw with rfl | hw
        · exact Or.inl (List.mem_reverse.mp hc)
        · rcases ih [] w hw c hc with h | h
          · cases h
          · exact Or.inr (List.mem_cons_of_mem c0 h)
    · rcases ih (c0 :: acc) w hw c hc with h | h
      · rcases List.mem_cons.mp h with rfl | h
        · exact Or.inr (List.mem_cons_self c cs)
        · exact Or.inl h
      · exact Or.inr (List.mem_cons_of_mem c0 h)

theorem joinWords_chars : ∀ (ws : List (List Char)) (c : Char),
    c ∈ joinWords ws → (∃ w ∈ ws, c ∈ w) ∨ c = ' ' := by
  intro ws
  induction ws with
  | nil => intro c hc; cases hc
  | cons w ws ih =>
    intro c hc
    cases ws with
    | nil => exact Or.inl ⟨w, List.mem_cons_self w [], hc⟩
    | cons w2 ws2 =>
      rw [show joinWords (w :: w2 :: ws2) = w ++ ' ' :: joinWords (w2 :: ws2)
        from rfl] at hc
      rcases List.mem_append.mp hc with hc | hc
      · exact Or.inl ⟨w, List.mem_cons_self w _, hc⟩
      · rcases List.mem_cons.mp hc with rfl | hc
        · exact Or.inr rfl
        · rcases ih c hc with ⟨w', hw', hc'⟩ | h
          · exact Or.inl ⟨w', List.mem_cons_of_mem w hw', hc'⟩
          · exact Or.inr h

/-- C9: on an input containing no recognized inline command, `sanitize` is
idempotent: the second stripper pass leaves the already markup-free text
unchanged, and the whitespace collapse is stable under repetition. -/
theorem sanitize_idempotent (s : String) (h : noRecogB s.toList = true) :
    sanitize (sanitize s) = sanitize s := by
  have hsp : noSpec (strip_rd_markup s).toList := by
    intro c hc
    exact stripGo_noSpec s.toList.length s.toList s.toList.length
      (Nat.le_refl _) (Nat.le_refl _) h c hc
  have hu : (sanitize s).toList = collapseL (strip_rd_markup s).toList := rfl
  have husp : noSpec (sanitize s).toList := by
    rw [hu]
    intro c hc
    simp only [collapseL] at hc
    rcases joinWords_chars _ c hc with ⟨w, hw, hcw⟩ | rfl
    · rcases splitWsGo_chars (strip_rd_markup s).toList [] w hw c hcw with
        h' | h'
      · cases h'
      · exact hsp c h'
    · exact ⟨by decide, by decide, by decide⟩
  have hstrip : strip_rd_markup (sanitize s) = sanitize s := by
    show String.mk (stripGo (sanitize s).toList.length (sanitize s).toList) =
      sanitize s
    rw [stripGo_plain (sanitize s).toList (sanitize s).toList.length
      (Nat.le_refl _) husp]
    rfl
  have hcol : collapseL (collapseL (strip_rd_markup s).toList) =
      collapseL (strip_rd_markup s).toList := by
    show joinWords (splitWsGo []
      (joinWords (splitWsGo [] (strip_rd_markup s).toList))) = _
    rw [splitWs_joinWords (splitWsGo [] (strip_rd_markup s).toList)
      (splitWsGo_words (strip_rd_markup s).toList []
        (by intro c hc; cases hc))]
    rfl
  calc sanitize (sanitize s)
      = String.mk (collapseL (strip_rd_markup (sanitize s)).toList) := rfl
    _ = String.mk (collapseL (sanitize s).toList) := by rw [hstrip]
    _ = String.mk (collapseL (collapseL (strip_rd_markup s).toList)) := by
        rw [hu]
    _ = String.mk (collapseL (strip_rd_markup s).toList) := by rw [hcol]
    _ = sanitize s := rfl

/-- C9 witness: a concrete command-free input (with an unrecognized command
name and ragged whitespace) on which sanitize is applied twice. -/
theorem sanitize_idempotent_witness :
    noRecogB ("  hello \x5cqux   world  ".toList) = true ∧
    sanitize (sanitize "  hello \x5cqux   world  ") =
      sanitize "  hello \x5cqux   world  " :=
  ⟨by decide, sanitize_idempotent "  hello \x5cqux   world  " (by decide)⟩

end PkgCtx
